import Mathlib

/-!
Shallow embedding of the rs-sudoku solving engine
(src/sudoku/{field,grid,common,mod}.rs and src/sudoku/solver/{backtracing,montecarlo}.rs).

Cell values are `u8` digits 0..9, modelled as `Nat`.  A grid is the
`Vec<Vec<u8>>` of cells together with the cached list of mutable fields,
modelled as `List (List Nat)` plus `List Field`.  Out-of-range vector
indexing (which panics in Rust) is modelled explicitly at each site where a
claim depends on it (solver loops); plain `get` accesses use the default `0`
and are only used at in-bounds coordinates in the theorems below.
-/

namespace RsSudoku

/-- `Field` from src/sudoku/field.rs: a (row, column) coordinate pair. -/
structure Field where
  row : Nat
  column : Nat
deriving DecidableEq, Repr

/-- `Grid` from src/sudoku/grid.rs: the 9x9 cell matrix plus the cached
list of mutable (originally zero) fields. -/
structure Grid where
  fields : List (List Nat)
  mutable_fields : List Field
deriving DecidableEq, Repr

namespace Grid

/-- `Grid::get_mutable_fields`: all coordinates with value 0, row-major. -/
def getMutableFields (fields : List (List Nat)) : List Field :=
  (List.range 9).flatMap fun r =>
    (List.range 9).filterMap fun c =>
      if (fields.getD r []).getD c 0 = 0 then some ⟨r, c⟩ else none

/-- `Grid::new`: store the cells and compute the mutable fields once. -/
def new (cells : List (List Nat)) : Grid :=
  { fields := cells, mutable_fields := getMutableFields cells }

/-- `Grid::get_parcel_fields`: all nine coordinates of a parcel, row-major. -/
def get_parcel_fields (parcel_index : Nat) : List Field :=
  (List.range 3).flatMap fun r =>
    (List.range 3).map fun c =>
      ⟨(parcel_index / 3) * 3 + r, (parcel_index % 3) * 3 + c⟩

/-- `Grid::get_parcel_index`: `(row/3)*3 + column/3`. -/
def get_parcel_index (f : Field) : Nat :=
  (f.row / 3) * 3 + f.column / 3

/-- `Grid::get`. -/
def get (g : Grid) (f : Field) : Nat :=
  (g.fields.getD f.row []).getD f.column 0

/-- `Grid::set`: writes the cell; the cached `mutable_fields` list is
untouched. -/
def set (g : Grid) (f : Field) (v : Nat) : Grid :=
  { g with fields := g.fields.set f.row ((g.fields.getD f.row []).set f.column v) }

/-- `Grid::get_row`. -/
def get_row (g : Grid) (row_index : Nat) : List Nat :=
  g.fields.getD row_index []

/-- `Grid::get_col`. -/
def get_col (g : Grid) (col_index : Nat) : List Nat :=
  g.fields.map fun r => r.getD col_index 0

/-- `Grid::get_parcel`: starts from a 3x3 zero matrix and fills it with the
outer loop over the column offset and the inner loop over the row offset
(column-major fill order), writing `parcel[ri][ci] = get(start_row + ri,
start_col + ci)`. -/
def get_parcel (g : Grid) (index : Nat) : List (List Nat) :=
  let start_row := (index / 3) * 3
  let start_col := (index % 3) * 3
  (List.range 3).foldl
    (fun parcel ci =>
      (List.range 3).foldl
        (fun parcel ri =>
          parcel.set ri ((parcel.getD ri []).set ci
            (g.get ⟨start_row + ri, start_col + ci⟩)))
        parcel)
    [[0, 0, 0], [0, 0, 0], [0, 0, 0]]

/-- `Grid::reset`: sets every mutable field back to 0. -/
def reset (g : Grid) : Grid :=
  g.mutable_fields.foldl (fun g' f => g'.set f 0) g

/-- `Grid::get_mutable_fields_of_parcel`. -/
def get_mutable_fields_of_parcel (g : Grid) (parcel_index : Nat) : List Field :=
  (get_parcel_fields parcel_index).filter fun f => g.mutable_fields.contains f

end Grid

/-- `common::has_only_unique_digits`: drop the zeros, then compare the
length with the length after removing duplicates. -/
def has_only_unique_digits (digits : List Nat) : Bool :=
  let nonzero_values := digits.filter fun v => v ≠ 0
  let unique_values := nonzero_values.dedup
  nonzero_values.length == unique_values.length

/-- `Sudoku` from src/sudoku/mod.rs: wraps a grid. -/
structure Sudoku where
  grid : Grid
deriving DecidableEq, Repr

namespace Sudoku

/-- `Sudoku::is_valid_row`. -/
def is_valid_row (s : Sudoku) (row_index : Nat) : Bool :=
  has_only_unique_digits (s.grid.get_row row_index)

/-- `Sudoku::is_valid_col`. -/
def is_valid_col (s : Sudoku) (col_index : Nat) : Bool :=
  has_only_unique_digits (s.grid.get_col col_index)

/-- `Sudoku::is_valid_parcel`. -/
def is_valid_parcel (s : Sudoku) (parcel_index : Nat) : Bool :=
  has_only_unique_digits (s.grid.get_parcel parcel_index).flatten

/-- `Sudoku::is_valid`: all nine parcels are valid. -/
def is_valid (s : Sudoku) : Bool :=
  (List.range 9).all fun parcel_index => s.is_valid_parcel parcel_index

/-- `Sudoku::is_done` (the no-argument form used by the solvers): every
mutable field is non-zero and the puzzle is valid. -/
def is_done (s : Sudoku) : Bool :=
  (s.grid.mutable_fields.all fun f => s.grid.get f ≠ 0) && s.is_valid

/-- `Sudoku::get_field_guesses`: digits 1..9 absent from the field's row,
column and parcel.  The Rust code takes the hash-set difference
`{1..9} \ seen` and sorts it; the result is the ascending filter below. -/
def get_field_guesses (s : Sudoku) (f : Field) : List Nat :=
  [1, 2, 3, 4, 5, 6, 7, 8, 9].filter fun d =>
    !((s.grid.get_row f.row).contains d
      || (s.grid.get_col f.column).contains d
      || (s.grid.get_parcel (Grid.get_parcel_index f)).flatten.contains d)

/-- `EnergyDimension` from src/sudoku/solver/montecarlo.rs. -/
inductive EnergyDimension where
  | Row
  | Column
  | Parcel

/-- `Sudoku::count_unique_elements`. -/
def count_unique_elements (s : Sudoku) (dim : EnergyDimension) (index : Nat) : Nat :=
  match dim with
  | .Column => (s.grid.get_col index).dedup.length
  | .Row => (s.grid.get_row index).dedup.length
  | .Parcel => (s.grid.get_parcel index).flatten.dedup.length

/-- `Sudoku::calc_energy`: `3 * 3^4 = 243` minus the number of unique
elements of each column, row and parcel.  The Rust code computes this in
`f32`; all intermediate values are small integers, modelled as `Int`. -/
def calc_energy (s : Sudoku) : Int :=
  [EnergyDimension.Column, EnergyDimension.Row, EnergyDimension.Parcel].foldl
    (fun energy dim =>
      (List.range 9).foldl (fun e index => e - (s.count_unique_elements dim index : Int)) energy)
    (243 : Int)

/-- `Sudoku::is_done_with_energy`: done, and the (possibly cached) energy
is zero. -/
def is_done_with_energy (s : Sudoku) (energy : Option Int) : Bool :=
  s.is_done && (energy.getD s.calc_energy == 0)

/-- `Sudoku::get_unsolved`: a copy of the grid with every mutable field
reset to 0. -/
def get_unsolved (s : Sudoku) : Grid :=
  s.grid.reset

end Sudoku

/-! ## Backtracing solver (src/sudoku/solver/backtracing.rs)

`Backtracing::solve` is a `while !sudoku.is_done()` loop over a `usize`
index into `mutable_fields` and a `u32` try counter.  Two sites can panic:
`mutable_fields[index]` when `index` is past the end of the list, and
`index -= 1` when `index` is 0 (usize underflow).  Both are modelled as
explicit outcomes.  The loop is driven by fuel; each iteration increments
`tries` and breaks as soon as `tries >= max_tries`, so any fuel larger than
`max_tries - tries` makes the `outOfFuel` outcome unreachable. -/

/-- Outcome of `Backtracing::solve`: a normal return carries the returned
sudoku and the solver's final try counter; the two panic outcomes carry the
state at the moment of the panic. -/
inductive BTResult where
  | ok : Sudoku → Nat → BTResult
  | indexUnderflow : Sudoku → Nat → BTResult
  | indexOOB : Sudoku → Nat → BTResult
  | outOfFuel : Sudoku → Nat → Nat → BTResult
deriving DecidableEq, Repr

/-- One-step-at-a-time unfolding of the `while` loop in
`Backtracing::solve`, structurally recursive on `fuel`. -/
def btLoop : Nat → Sudoku → Nat → Nat → Nat → BTResult
  | 0, s, index, tries, _ => .outOfFuel s index tries
  | fuel + 1, s, index, tries, max_tries =>
    if s.is_done then .ok s tries
    else
      match s.grid.mutable_fields.get? index with
      | none => .indexOOB s tries
      | some f =>
        let val := s.grid.get f
        let guesses := s.get_field_guesses f
        let next_guesses := guesses.filter fun v => val < v
        match next_guesses with
        | [] =>
          let s' : Sudoku := ⟨s.grid.set f 0⟩
          if index = 0 then .indexUnderflow s' tries
          else
            let tries' := tries + 1
            if max_tries ≤ tries' then .ok s' tries'
            else btLoop fuel s' (index - 1) tries' max_tries
        | v :: _ =>
          let s' : Sudoku := ⟨s.grid.set f v⟩
          let tries' := tries + 1
          if max_tries ≤ tries' then .ok s' tries'
          else btLoop fuel s' (index + 1) tries' max_tries

namespace Backtracing

/-- `Backtracing::solve`: run the loop from index 0 and a zero try counter.
`max_tries + 1` units of fuel are enough for the `tries >= max_tries` break
to fire first, so `outOfFuel` never occurs. -/
def solve (s : Sudoku) (max_tries : Nat) : BTResult :=
  btLoop (max_tries + 1) s 0 0 max_tries

/-- `Backtracing::is_success`: the final try counter stayed strictly below
`max_tries`. -/
def is_success (tries max_tries : Nat) : Bool :=
  tries < max_tries

end Backtracing

/-! ## Montecarlo solver (src/sudoku/solver/montecarlo.rs)

Phase 1 fills, parcel by parcel, the parcel's mutable fields with the
digits missing from that parcel (`diff[i]` panics when the missing-digit
list is shorter than the mutable-field list, modelled as `none`).

The annealing loop draws a random parcel index, shuffles that parcel's
mutable-field list, swaps the first two entries' values, and accepts or
rejects by the Metropolis test `exp((energy_last - energy)/temperature) <
threshold` on an `f32` uniform draw.  The random draws are modelled as an
explicit directive stream: for iteration `t`, `dirs t` gives the parcel
index, the shuffled field list (constrained, where a theorem needs it, to
be a permutation of that parcel's mutable fields), and the Boolean result
of the Metropolis test; the analytic content of that test over the reals is
`mcReject` below.  Indexing `[0]`/`[1]` of a shuffled list with fewer than
two entries panics, modelled as the `panicked` outcome. -/

/-- The Metropolis rejection test of the annealing step, over the reals:
reject the swap when `exp((energy_last - energy) / temperature)` is below
the uniform draw. -/
def mcReject (energy_last energy : Int) (temperature threshold : ℝ) : Prop :=
  Real.exp (((energy_last - energy : Int) : ℝ) / temperature) < threshold

/-- The grid mutation of one annealing step: swap the two cells' values,
then swap them back when the step is rejected. -/
def mcStepState (s : Sudoku) (f1 f2 : Field) (reject : Bool) : Sudoku :=
  let f1_val := s.grid.get f1
  let f2_val := s.grid.get f2
  let swapped := (s.grid.set f1 f2_val).set f2 f1_val
  if reject then ⟨(swapped.set f1 f1_val).set f2 f2_val⟩ else ⟨swapped⟩

/-- Phase-1 initialisation of one parcel: compute the digits 1..9 missing
from the parcel and write them, in order, into the parcel's mutable
fields.  `diff[i]` is out of bounds (a Rust panic) when the parcel has
more mutable fields than missing digits. -/
def mcInitParcel (g : Grid) (pi : Nat) : Option Grid :=
  let mutable_fields := g.get_mutable_fields_of_parcel pi
  let unique_values := (g.get_parcel pi).flatten.dedup.filter fun v => 0 < v
  let diff := [1, 2, 3, 4, 5, 6, 7, 8, 9].filter fun v => !(unique_values.contains v)
  if mutable_fields.length ≤ diff.length then
    some ((mutable_fields.zip diff).foldl (fun g' fd => g'.set fd.1 fd.2) g)
  else none

/-- Phase 1 over all nine parcels. -/
def mcInit (g : Grid) : Option Grid :=
  (List.range 9).foldl (fun og pi => og.bind fun g' => mcInitParcel g' pi) (some g)

/-- A directive for one annealing iteration: the drawn parcel index, the
shuffled mutable-field list of that parcel, and the Boolean outcome of the
Metropolis test for this iteration. -/
structure MCDirective where
  pi : Nat
  shuffled : List Field
  reject : Bool

/-- Outcome of `Montecarlo::solve`. -/
inductive MCResult where
  | ok : Sudoku → Nat → MCResult
  | panicked : Sudoku → Nat → MCResult
  | initPanic : MCResult
  | outOfFuel : Sudoku → Nat → MCResult
deriving Repr

/-- The annealing loop of `Montecarlo::solve`, driven by the directive
stream (indexed by the try counter, which increments by exactly one per
iteration). -/
def mcLoop (dirs : Nat → MCDirective) :
    Nat → Sudoku → Int → Nat → Nat → MCResult
  | 0, s, _, tries, _ => .outOfFuel s tries
  | fuel + 1, s, energy_last, tries, max_tries =>
    if s.is_done_with_energy (some energy_last) then .ok s tries
    else
      match (dirs tries).shuffled with
      | f1 :: f2 :: _ =>
        let f1_val := s.grid.get f1
        let f2_val := s.grid.get f2
        let swapped : Sudoku := ⟨(s.grid.set f1 f2_val).set f2 f1_val⟩
        let energy := swapped.calc_energy
        let reject := (dirs tries).reject
        let s' : Sudoku :=
          if reject then ⟨(swapped.grid.set f1 f1_val).set f2 f2_val⟩ else swapped
        let energy_last' := if reject then energy_last else energy
        let tries' := tries + 1
        if max_tries ≤ tries' then .ok s' tries'
        else mcLoop dirs fuel s' energy_last' tries' max_tries
      | _ => .panicked s tries

namespace Montecarlo

/-- `Montecarlo::solve`: phase 1, then the annealing loop from a zero try
counter with the freshly computed energy. -/
def solve (dirs : Nat → MCDirective) (s : Sudoku) (max_tries : Nat) : MCResult :=
  match mcInit s.grid with
  | none => .initPanic
  | some g => mcLoop dirs (max_tries + 1) ⟨g⟩ (Sudoku.calc_energy ⟨g⟩) 0 max_tries

/-- `Montecarlo::is_success`. -/
def is_success (tries max_tries : Nat) : Bool :=
  tries < max_tries

end Montecarlo

/-! ## Basic list and grid lemmas -/

theorem list_set_getD {α : Type} (l : List α) (i : Nat) (d : α) :
    l.set i (l.getD i d) = l := by
  induction l generalizing i with
  | nil => rfl
  | cons a l ih =>
    cases i with
    | zero => rfl
    | succ n => show a :: l.set n (l.getD n d) = a :: l; rw [ih]

theorem grid_set_mutable (g : Grid) (f : Field) (v : Nat) :
    (g.set f v).mutable_fields = g.mutable_fields := rfl

/-- The value matrix computed by the column-major fill of `Grid::get_parcel`:
entry `[ri][ci]` holds the grid value at row `(index/3)*3 + ri`, column
`(index%3)*3 + ci`. -/
theorem get_parcel_eq (g : Grid) (index : Nat) :
    g.get_parcel index =
      [[g.get ⟨(index / 3) * 3, (index % 3) * 3⟩,
        g.get ⟨(index / 3) * 3, (index % 3) * 3 + 1⟩,
        g.get ⟨(index / 3) * 3, (index % 3) * 3 + 2⟩],
       [g.get ⟨(index / 3) * 3 + 1, (index % 3) * 3⟩,
        g.get ⟨(index / 3) * 3 + 1, (index % 3) * 3 + 1⟩,
        g.get ⟨(index / 3) * 3 + 1, (index % 3) * 3 + 2⟩],
       [g.get ⟨(index / 3) * 3 + 2, (index % 3) * 3⟩,
        g.get ⟨(index / 3) * 3 + 2, (index % 3) * 3 + 1⟩,
        g.get ⟨(index / 3) * 3 + 2, (index % 3) * 3 + 2⟩]] := rfl

/-- The flattened parcel lists the parcel's nine cells in the row-major
order of `Grid::get_parcel_fields`. -/
theorem get_parcel_flatten (g : Grid) (index : Nat) :
    (g.get_parcel index).flatten = (Grid.get_parcel_fields index).map g.get := rfl

/-- Membership in the cached mutable-field list of a freshly constructed
grid: exactly the in-range coordinates whose cell value is 0. -/
theorem mem_getMutableFields (cells : List (List Nat)) (f : Field) :
    f ∈ Grid.getMutableFields cells ↔
      f.row < 9 ∧ f.column < 9 ∧ (cells.getD f.row []).getD f.column 0 = 0 := by
  cases f with
  | mk r c =>
    simp only [Grid.getMutableFields, List.mem_flatMap, List.mem_filterMap, List.mem_range]
    constructor
    · rintro ⟨r', hr', c', hc', h⟩
      split at h
      · cases h
        exact ⟨hr', hc', by assumption⟩
      · cases h
    · rintro ⟨hr, hc, h0⟩
      exact ⟨r, hr, c, hc, by rw [if_pos h0]⟩

/-! ## C8: `get_parcel` content -/

/-- The grid of §8's `get_parcel` fixture: top-left 3x3 block
`[4,3,5],[6,8,2],[1,9,7]`, all other cells empty. -/
def c8Cells : List (List Nat) :=
  [[4, 3, 5, 0, 0, 0, 0, 0, 0],
   [6, 8, 2, 0, 0, 0, 0, 0, 0],
   [1, 9, 7, 0, 0, 0, 0, 0, 0],
   [0, 0, 0, 0, 0, 0, 0, 0, 0],
   [0, 0, 0, 0, 0, 0, 0, 0, 0],
   [0, 0, 0, 0, 0, 0, 0, 0, 0],
   [0, 0, 0, 0, 0, 0, 0, 0, 0],
   [0, 0, 0, 0, 0, 0, 0, 0, 0],
   [0, 0, 0, 0, 0, 0, 0, 0, 0]]

/-- C8: for every grid and parcel index, the 3x3 nested sequence returned
by `get_parcel` (filled internally in column-major order) has at `[ri][ci]`
the grid value at row `(index/3)*3 + ri`, column `(index%3)*3 + ci`; on the
fixture grid whose top-left block rows are `[4,3,5],[6,8,2],[1,9,7]`,
`get_parcel 0` returns exactly that block. -/
theorem c8_get_parcel_spec :
    (∀ (g : Grid) (index ri ci : Nat), ri < 3 → ci < 3 →
      ((g.get_parcel index).getD ri []).getD ci 0 =
        g.get ⟨(index / 3) * 3 + ri, (index % 3) * 3 + ci⟩)
    ∧ (Grid.new c8Cells).get_parcel 0 = [[4, 3, 5], [6, 8, 2], [1, 9, 7]] := by
  constructor
  · intro g index ri ci hri hci
    interval_cases ri <;> interval_cases ci <;> simp [get_parcel_eq g index]
  · rfl

/-- Witness for C8 at a concrete entry. -/
theorem c8_get_parcel_spec_witness :
    (((Grid.new c8Cells).get_parcel 0).getD 1 []).getD 2 0 =
      (Grid.new c8Cells).get ⟨(0 / 3) * 3 + 1, (0 % 3) * 3 + 2⟩ :=
  c8_get_parcel_spec.1 (Grid.new c8Cells) 0 1 2 (by decide) (by decide)

/-! ## C7: `get_field_guesses` -/

/-- A 9-row puzzle whose row 0 is `003010040` (the spec's fixture row) and
whose remaining cells are all empty. -/
def c7Cells : List (List Nat) :=
  [[0, 0, 3, 0, 1, 0, 0, 4, 0],
   [0, 0, 0, 0, 0, 0, 0, 0, 0],
   [0, 0, 0, 0, 0, 0, 0, 0, 0],
   [0, 0, 0, 0, 0, 0, 0, 0, 0],
   [0, 0, 0, 0, 0, 0, 0, 0, 0],
   [0, 0, 0, 0, 0, 0, 0, 0, 0],
   [0, 0, 0, 0, 0, 0, 0, 0, 0],
   [0, 0, 0, 0, 0, 0, 0, 0, 0],
   [0, 0, 0, 0, 0, 0, 0, 0, 0]]

/-- C7 counterexample: on a puzzle whose row 0 is `003010040` the digits 3
and 4 already occur in row 0, so `get_field_guesses (0,0)` cannot be
`[3,4,5]` (it is `[2,5,6,7,8,9]` when all other cells are empty). -/
theorem c7_fixture_counterexample :
    Sudoku.get_field_guesses ⟨Grid.new c7Cells⟩ ⟨0, 0⟩ ≠ [3, 4, 5] := by decide

/-- C7 amended: `get_field_guesses` returns exactly the ascending sequence
of digits 1-9 that occur in none of the coordinate's row, column, or
parcel; for the puzzle whose row 0 is `003010040` (and all other cells
empty) the result at (0,0) is `[2,5,6,7,8,9]`. -/
theorem c7_get_field_guesses_spec :
    (∀ (s : Sudoku) (f : Field),
      List.Sorted (· < ·) (s.get_field_guesses f)
      ∧ ∀ d : Nat, d ∈ s.get_field_guesses f ↔
          1 ≤ d ∧ d ≤ 9
          ∧ d ∉ s.grid.get_row f.row
          ∧ d ∉ s.grid.get_col f.column
          ∧ d ∉ (s.grid.get_parcel (Grid.get_parcel_index f)).flatten)
    ∧ Sudoku.get_field_guesses ⟨Grid.new c7Cells⟩ ⟨0, 0⟩ = [2, 5, 6, 7, 8, 9] := by
  refine ⟨fun s f => ⟨?_, fun d => ?_⟩, by decide⟩
  · exact List.Pairwise.filter _ (by decide)
  · simp only [Sudoku.get_field_guesses, List.mem_filter, Bool.not_eq_true',
      Bool.or_eq_false_iff, List.contains, List.elem_eq_mem, decide_eq_false_iff_not]
    constructor
    · rintro ⟨hd, ⟨h1, h2⟩, h3⟩
      simp only [List.mem_cons, List.not_mem_nil, or_false] at hd
      exact ⟨by omega, by omega, h1, h2, h3⟩
    · rintro ⟨h1, h9, hr, hc, hp⟩
      refine ⟨?_, ⟨hr, hc⟩, hp⟩
      simp only [List.mem_cons, List.not_mem_nil, or_false]
      omega

/-! ## Concrete fixture grids -/

/-- An unsolvable puzzle that makes the backtracking loop retreat at index
0 on its very first step: row 0 holds 1..8, the cell below (0,0) holds 9,
so cell (0,0) — the first mutable field — has no guesses at all. -/
def underCells : List (List Nat) :=
  [[0, 1, 2, 3, 4, 5, 6, 7, 8],
   [9, 0, 0, 0, 0, 0, 0, 0, 0],
   [0, 0, 0, 0, 0, 0, 0, 0, 0],
   [0, 0, 0, 0, 0, 0, 0, 0, 0],
   [0, 0, 0, 0, 0, 0, 0, 0, 0],
   [0, 0, 0, 0, 0, 0, 0, 0, 0],
   [0, 0, 0, 0, 0, 0, 0, 0, 0],
   [0, 0, 0, 0, 0, 0, 0, 0, 0],
   [0, 0, 0, 0, 0, 0, 0, 0, 0]]

/-- A fully solved 9x9 grid. -/
def solvedCells : List (List Nat) :=
  [[4, 3, 5, 2, 6, 9, 7, 8, 1],
   [6, 8, 2, 5, 7, 1, 4, 9, 3],
   [1, 9, 7, 8, 3, 4, 5, 6, 2],
   [8, 2, 6, 1, 9, 5, 3, 4, 7],
   [3, 7, 4, 6, 8, 2, 9, 1, 5],
   [9, 5, 1, 7, 4, 3, 6, 2, 8],
   [5, 1, 9, 3, 2, 6, 8, 7, 4],
   [2, 4, 8, 9, 5, 7, 1, 3, 6],
   [7, 6, 3, 4, 1, 8, 2, 5, 9]]

/-- `solvedCells` with the single cell (0,0) emptied: a puzzle solved in
exactly one backtracking step. -/
def oneCells : List (List Nat) :=
  [[0, 3, 5, 2, 6, 9, 7, 8, 1],
   [6, 8, 2, 5, 7, 1, 4, 9, 3],
   [1, 9, 7, 8, 3, 4, 5, 6, 2],
   [8, 2, 6, 1, 9, 5, 3, 4, 7],
   [3, 7, 4, 6, 8, 2, 9, 1, 5],
   [9, 5, 1, 7, 4, 3, 6, 2, 8],
   [5, 1, 9, 3, 2, 6, 8, 7, 4],
   [2, 4, 8, 9, 5, 7, 1, 3, 6],
   [7, 6, 3, 4, 1, 8, 2, 5, 9]]

/-- A grid whose parcel 0 is fully pre-filled (so it has zero mutable
fields) while all other parcels are empty.  Phase 1 of the Monte Carlo
solver leaves it row/column-inconsistent, so the annealing loop runs. -/
def c9Cells : List (List Nat) :=
  [[1, 2, 3, 0, 0, 0, 0, 0, 0],
   [4, 5, 6, 0, 0, 0, 0, 0, 0],
   [7, 8, 9, 0, 0, 0, 0, 0, 0],
   [0, 0, 0, 0, 0, 0, 0, 0, 0],
   [0, 0, 0, 0, 0, 0, 0, 0, 0],
   [0, 0, 0, 0, 0, 0, 0, 0, 0],
   [0, 0, 0, 0, 0, 0, 0, 0, 0],
   [0, 0, 0, 0, 0, 0, 0, 0, 0],
   [0, 0, 0, 0, 0, 0, 0, 0, 0]]

/-- The grid produced by Monte Carlo phase 1 on `c9Cells`. -/
def c9Init : Grid :=
  match mcInit (Grid.new c9Cells) with
  | some g => g
  | none => Grid.new []

/-! ## C2: unguarded retreat at index 0 -/

/-- C2 (the code as it stands): on the unsolvable `underCells` puzzle the
first loop iteration finds no guesses at mutable field 0 and executes
`index -= 1` with `index == 0` — the usize-underflow panic site — for
every `max_tries`; no `Unsolvable` error is produced.  The carried state
shows the cell was zeroed before the panic and the try counter was never
incremented. -/
theorem c2_underflow_at_index_zero :
    Sudoku.is_done ⟨Grid.new underCells⟩ = false
    ∧ Sudoku.get_field_guesses ⟨Grid.new underCells⟩ ⟨0, 0⟩ = []
    ∧ (Grid.new underCells).mutable_fields.get? 0 = some ⟨0, 0⟩
    ∧ ∀ max_tries : Nat,
        Backtracing.solve ⟨Grid.new underCells⟩ max_tries =
          .indexUnderflow ⟨Grid.new underCells⟩ 0 :=
  ⟨rfl, rfl, rfl, fun _ => rfl⟩

/-! ## C10: reaching done exactly at the ceiling -/

/-- C10: `oneCells` is solved by the first backtracking step; with
`max_tries = 1` the try counter reaches the ceiling on that same step, so
the loop breaks with `tries = max_tries = 1`, the returned puzzle is fully
solved (`is_done`), and yet `is_success` is false. -/
theorem c10_done_at_ceiling :
    Backtracing.solve ⟨Grid.new oneCells⟩ 1 =
      .ok ⟨⟨solvedCells, [⟨0, 0⟩]⟩⟩ 1
    ∧ Sudoku.is_done ⟨⟨solvedCells, [⟨0, 0⟩]⟩⟩ = true
    ∧ Backtracing.is_success 1 1 = false :=
  ⟨rfl, rfl, rfl⟩

/-! ## C3: success flag and try counter -/

/-- C3 counterexample: `oneCells` is not done, yet Monte Carlo with
`max_tries = 1` solves it during phase-1 initialisation (which does not
count towards `tries`), so `solve` returns with `get_tries() = 0` (not 1)
and `is_success() = true` (not false). -/
theorem c3_phase1_counterexample :
    Sudoku.is_done ⟨Grid.new oneCells⟩ = false
    ∧ Montecarlo.solve (fun _ => ⟨0, [], true⟩) ⟨Grid.new oneCells⟩ 1 =
        .ok ⟨⟨solvedCells, [⟨0, 0⟩]⟩⟩ 0
    ∧ Montecarlo.is_success 0 1 = true :=
  ⟨rfl, rfl, rfl⟩

/-- C3 amended: `is_success` is exactly "try counter strictly below
`max_tries`" for both solvers; with `max_tries = 1`, a Backtracing run on a
not-done puzzle that returns normally returns with `tries = 1` and
`is_success = false`; the same holds for a Monte Carlo run provided the
puzzle is still not done (with zero energy) after phase-1 initialisation. -/
theorem c3_success_and_tries :
    (∀ tries max_tries : Nat,
      (Backtracing.is_success tries max_tries = true ↔ tries < max_tries)
      ∧ (Montecarlo.is_success tries max_tries = true ↔ tries < max_tries))
    ∧ (∀ (s s' : Sudoku) (t : Nat), s.is_done = false →
        Backtracing.solve s 1 = .ok s' t →
        t = 1 ∧ Backtracing.is_success t 1 = false)
    ∧ (∀ (dirs : Nat → MCDirective) (s s' : Sudoku) (t : Nat) (g : Grid),
        mcInit s.grid = some g →
        Sudoku.is_done_with_energy ⟨g⟩ (some (Sudoku.calc_energy ⟨g⟩)) = false →
        Montecarlo.solve dirs s 1 = .ok s' t →
        t = 1 ∧ Montecarlo.is_success t 1 = false) := by
  refine ⟨fun tries mt => ⟨by simp [Backtracing.is_success], by simp [Montecarlo.is_success]⟩,
    ?_, ?_⟩
  · intro s s' t hdone h
    unfold Backtracing.solve at h
    simp only [btLoop, hdone, Bool.false_eq_true, if_false, reduceIte] at h
    split at h
    · cases h
    · split at h
      · simp at h
      · simp only [Nat.le_refl, if_true, reduceIte] at h
        cases h
        exact ⟨rfl, rfl⟩
  · intro dirs s s' t g hg hdone h
    unfold Montecarlo.solve at h
    rw [hg] at h
    simp only [mcLoop, hdone, Bool.false_eq_true, if_false, reduceIte] at h
    split at h
    · simp only [Nat.le_refl, if_true, reduceIte] at h
      cases h
      exact ⟨rfl, rfl⟩
    · cases h

/-- Witness for C3 amended: the Backtracing half at `oneCells` with
`max_tries = 1`, and the Monte Carlo half at `c9Cells` (a puzzle that
phase 1 leaves unfinished) with a non-panicking directive stream. -/
theorem c3_success_and_tries_witness :
    (1 = 1 ∧ Backtracing.is_success 1 1 = false)
    ∧ (1 = 1 ∧ Montecarlo.is_success 1 1 = false) :=
  ⟨c3_success_and_tries.2.1 ⟨Grid.new oneCells⟩ ⟨⟨solvedCells, [⟨0, 0⟩]⟩⟩ 1 rfl rfl,
   c3_success_and_tries.2.2 (fun _ => ⟨1, [⟨0, 3⟩, ⟨0, 4⟩], true⟩)
     ⟨Grid.new c9Cells⟩ ⟨c9Init⟩ 1 c9Init rfl rfl rfl⟩

/-! ## C9: the annealing step needs two mutable fields in the parcel -/

/-- C9: after phase-1 initialisation leaves a puzzle unfinished, an
annealing iteration whose random parcel pick selects a parcel with fewer
than two mutable fields indexes the shuffled mutable-field list out of
bounds (`mut_fields_parcel[0]`/`[1]`), for any shuffle of that list and
any `max_tries`: `Montecarlo::solve` panics instead of returning. -/
theorem c9_swap_needs_two_mutable_fields
    (s : Sudoku) (g : Grid) (pi : Nat) (shuffled : List Field) (reject : Bool)
    (max_tries : Nat)
    (hinit : mcInit s.grid = some g)
    (hnotdone : Sudoku.is_done_with_energy ⟨g⟩ (some (Sudoku.calc_energy ⟨g⟩)) = false)
    (hperm : shuffled.Perm (g.get_mutable_fields_of_parcel pi))
    (hshort : (g.get_mutable_fields_of_parcel pi).length < 2) :
    Montecarlo.solve (fun _ => ⟨pi, shuffled, reject⟩) s max_tries = .panicked ⟨g⟩ 0 := by
  unfold Montecarlo.solve
  rw [hinit]
  simp only [mcLoop, hnotdone, Bool.false_eq_true, if_false, reduceIte]
  match hs : shuffled with
  | [] => rfl
  | [f] => rfl
  | f1 :: f2 :: rest =>
    have := hperm.length_eq
    simp at this
    omega

/-- Witness for C9: parcel 0 of `c9Cells` is fully pre-filled, so it has no
mutable fields at all; phase 1 leaves the puzzle with non-zero energy, and
the step picking parcel 0 panics. -/
theorem c9_swap_needs_two_mutable_fields_witness :
    Montecarlo.solve (fun _ => ⟨0, [], false⟩) ⟨Grid.new c9Cells⟩ 5 = .panicked ⟨c9Init⟩ 0 :=
  c9_swap_needs_two_mutable_fields ⟨Grid.new c9Cells⟩ c9Init 0 [] false 5
    rfl rfl (by decide) (by decide)

/-! ## Set/get lemmas for the nested cell matrix -/

theorem list_set_nil {α : Type} (c : Nat) (v : α) : List.set [] c v = [] := rfl

theorem getD_len_le (F : List (List Nat)) (i : Nat) (h : F.length ≤ i) :
    F.getD i [] = [] := by
  rw [List.getD_eq_getElem?_getD, List.getElem?_eq_none h]
  rfl

theorem getD_set_self (F : List (List Nat)) (i : Nat) (X : List Nat)
    (hX : F.length ≤ i → X = F.getD i []) :
    (F.set i X).getD i [] = X := by
  by_cases h : i < F.length
  · rw [List.getD_eq_getElem?_getD, List.getElem?_set_self h]
    rfl
  · rw [List.set_eq_of_length_le (Nat.le_of_not_lt h), hX (Nat.le_of_not_lt h)]

theorem getD_set_ne (F : List (List Nat)) (i j : Nat) (X : List Nat) (h : i ≠ j) :
    (F.set i X).getD j [] = F.getD j [] := by
  rw [List.getD_eq_getElem?_getD, List.getElem?_set_ne h, ← List.getD_eq_getElem?_getD]

/-- Swapping two cells' values and then writing the two original values
back restores the grid exactly (the reject path of the annealing step). -/
theorem grid_swap_restore (g : Grid) (f1 f2 : Field) :
    (((g.set f1 (g.get f2)).set f2 (g.get f1)).set f1 (g.get f1)).set f2 (g.get f2) = g := by
  obtain ⟨F, M⟩ := g
  obtain ⟨r1, c1⟩ := f1
  obtain ⟨r2, c2⟩ := f2
  simp only [Grid.set, Grid.get, Grid.mk.injEq, and_true]
  by_cases hrr : r1 = r2
  · subst hrr
    by_cases hb : r1 < F.length
    · have hget : ∀ X : List Nat, (F.set r1 X).getD r1 [] = X := fun X => by
        rw [List.getD_eq_getElem?_getD, List.getElem?_set_self hb]
        rfl
      have hget2 : ∀ X Y : List Nat, ((F.set r1 X).set r1 Y).getD r1 [] = Y := fun X Y => by
        rw [List.set_set, hget]
      have hget3 : ∀ X Y Z : List Nat,
          (((F.set r1 X).set r1 Y).set r1 Z).getD r1 [] = Z := fun X Y Z => by
        rw [List.set_set, hget2]
      rw [hget, hget2, hget3]
      simp only [List.set_set]
      by_cases hcc : c1 = c2
      · subst hcc
        rw [List.set_set, List.set_set, List.set_set, list_set_getD, list_set_getD]
      · rw [List.set_comm ((F.getD r1 []).getD c1 0) ((F.getD r1 []).getD c1 0) _
          (Ne.symm hcc), List.set_set, List.set_set, list_set_getD, list_set_getD,
          list_set_getD]
    · simp only [List.set_eq_of_length_le (Nat.le_of_not_lt hb)]
  · have hA : F.length ≤ r1 →
        (F.getD r1 []).set c1 ((F.getD r2 []).getD c2 0) = F.getD r1 [] := fun h => by
      rw [getD_len_le F r1 h, list_set_nil]
    rw [getD_set_ne F r1 r2 _ hrr, getD_set_ne _ r2 r1 _ (Ne.symm hrr),
      getD_set_self F r1 _ hA, List.set_set, list_set_getD, getD_set_ne _ r1 r2 _ hrr]
    have hB : (F.set r1 ((F.getD r1 []).set c1 ((F.getD r2 []).getD c2 0))).length ≤ r2 →
        (F.getD r2 []).set c2 ((F.getD r1 []).getD c1 0) =
          (F.set r1 ((F.getD r1 []).set c1 ((F.getD r2 []).getD c2 0))).getD r2 [] := fun h => by
      rw [List.length_set] at h
      rw [getD_set_ne F r1 r2 _ hrr, getD_len_le F r2 h, list_set_nil]
    rw [getD_set_self _ r2 _ hB, List.set_set, list_set_getD,
      List.set_comm _ _ _ (Ne.symm hrr), List.set_set, List.set_set, list_set_getD,
      list_set_getD]

/-! ## C5: the Metropolis acceptance rule -/

/-- C5: in every annealing step, a swap whose energy does not increase is
accepted for every uniform draw below 1; otherwise the swap is accepted
exactly when `exp((energy_last - energy)/temperature)` is at least the
draw; and a rejected step swaps the two values back, so the puzzle after
the step is exactly the puzzle before it (the accepted step keeps the
swapped grid). -/
theorem c5_metropolis_acceptance
    (s : Sudoku) (f1 f2 : Field) (energy_last : Int) (temperature threshold : ℝ)
    (hT : 0 < temperature) (hthr : threshold < 1) :
    ((mcStepState s f1 f2 false).calc_energy ≤ energy_last →
      ¬ mcReject energy_last (mcStepState s f1 f2 false).calc_energy temperature threshold)
    ∧ (¬ mcReject energy_last (mcStepState s f1 f2 false).calc_energy temperature threshold ↔
        threshold ≤ Real.exp
          (((energy_last - (mcStepState s f1 f2 false).calc_energy : Int) : ℝ) / temperature))
    ∧ mcStepState s f1 f2 true = s
    ∧ mcStepState s f1 f2 false =
        ⟨(s.grid.set f1 (s.grid.get f2)).set f2 (s.grid.get f1)⟩ := by
  refine ⟨?_, not_lt, ?_, rfl⟩
  · intro hle
    rw [mcReject, not_lt]
    calc threshold ≤ 1 := hthr.le
    _ ≤ Real.exp (((energy_last - (mcStepState s f1 f2 false).calc_energy : Int) : ℝ) / temperature) := by
        apply Real.one_le_exp
        apply div_nonneg _ hT.le
        have : (0 : Int) ≤ energy_last - (mcStepState s f1 f2 false).calc_energy := by omega
        exact_mod_cast this
  · show (⟨_⟩ : Sudoku) = s
    rw [grid_swap_restore s.grid f1 f2]

/-- Witness for C5 at a concrete step: the solved grid, its two top-left
cells, temperature 1 and draw 0. -/
theorem c5_metropolis_acceptance_witness :
    (((mcStepState ⟨Grid.new solvedCells⟩ ⟨0, 0⟩ ⟨0, 1⟩ false).calc_energy ≤ 24 →
      ¬ mcReject 24 (mcStepState ⟨Grid.new solvedCells⟩ ⟨0, 0⟩ ⟨0, 1⟩ false).calc_energy 1 0)
    ∧ (¬ mcReject 24 (mcStepState ⟨Grid.new solvedCells⟩ ⟨0, 0⟩ ⟨0, 1⟩ false).calc_energy 1 0 ↔
        0 ≤ Real.exp
          (((24 - (mcStepState ⟨Grid.new solvedCells⟩ ⟨0, 0⟩ ⟨0, 1⟩ false).calc_energy : Int) : ℝ) / 1))
    ∧ mcStepState ⟨Grid.new solvedCells⟩ ⟨0, 0⟩ ⟨0, 1⟩ true = ⟨Grid.new solvedCells⟩
    ∧ mcStepState ⟨Grid.new solvedCells⟩ ⟨0, 0⟩ ⟨0, 1⟩ false =
        ⟨((Grid.new solvedCells).set ⟨0, 0⟩ ((Grid.new solvedCells).get ⟨0, 1⟩)).set ⟨0, 1⟩
          ((Grid.new solvedCells).get ⟨0, 0⟩)⟩) ∧
    (mcStepState ⟨Grid.new solvedCells⟩ ⟨0, 0⟩ ⟨0, 1⟩ false).calc_energy ≤ 24 :=
  ⟨c5_metropolis_acceptance ⟨Grid.new solvedCells⟩ ⟨0, 0⟩ ⟨0, 1⟩ 24 1 0
      zero_lt_one zero_lt_one, by decide⟩

/-! ## Reset/write-confinement lemmas -/

/-- Overwriting the same cell twice keeps only the second write. -/
theorem grid_set_set (g : Grid) (f : Field) (v w : Nat) :
    (g.set f v).set f w = g.set f w := by
  obtain ⟨F, M⟩ := g
  obtain ⟨r, c⟩ := f
  simp only [Grid.set, Grid.mk.injEq, and_true]
  have hA : F.length ≤ r → (F.getD r []).set c v = F.getD r [] := fun h => by
    rw [getD_len_le F r h, list_set_nil]
  rw [getD_set_self F r _ hA, List.set_set, List.set_set]

/-- Writes to two distinct cells commute. -/
theorem grid_set_comm (g : Grid) (f m : Field) (v w : Nat) (hfm : f ≠ m) :
    (g.set f v).set m w = (g.set m w).set f v := by
  obtain ⟨F, M⟩ := g
  obtain ⟨r1, c1⟩ := f
  obtain ⟨r2, c2⟩ := m
  simp only [Grid.set, Grid.mk.injEq, and_true]
  by_cases hrr : r1 = r2
  · subst hrr
    have hcc : c1 ≠ c2 := fun h => hfm (by rw [h])
    have hA : F.length ≤ r1 → (F.getD r1 []).set c1 v = F.getD r1 [] := fun h => by
      rw [getD_len_le F r1 h, list_set_nil]
    have hB : F.length ≤ r1 → (F.getD r1 []).set c2 w = F.getD r1 [] := fun h => by
      rw [getD_len_le F r1 h, list_set_nil]
    rw [getD_set_self F r1 _ hA, getD_set_self F r1 _ hB, List.set_set, List.set_set,
      List.set_comm v w _ hcc]
  · rw [getD_set_ne F r1 r2 _ hrr, getD_set_ne F r2 r1 _ (Ne.symm hrr),
      List.set_comm _ _ _ hrr]

/-- Writing the value a cell already holds changes nothing. -/
theorem grid_set_get_self (g : Grid) (f : Field) : g.set f (g.get f) = g := by
  obtain ⟨F, M⟩ := g
  obtain ⟨r, c⟩ := f
  simp only [Grid.set, Grid.get, Grid.mk.injEq, and_true]
  rw [list_set_getD, list_set_getD]

/-- A write to a cell of `l` is absorbed by the zero-fold over `l`. -/
theorem foldl_setZero_absorb (l : List Field) :
    ∀ (g : Grid) (f : Field) (v : Nat), f ∈ l →
      l.foldl (fun g' x => g'.set x 0) (g.set f v) =
        l.foldl (fun g' x => g'.set x 0) g := by
  induction l with
  | nil => intro g f v hf; cases hf
  | cons m l ih =>
    intro g f v hf
    simp only [List.foldl_cons]
    by_cases hfm : f = m
    · subst hfm
      rw [grid_set_set]
    · rw [grid_set_comm g f m v 0 hfm]
      exact ih (g.set m 0) f v ((List.mem_cons.1 hf).resolve_left hfm)

/-- `reset` is unchanged by a prior write to a mutable field. -/
theorem grid_set_mem_reset (g : Grid) (f : Field) (v : Nat)
    (hf : f ∈ g.mutable_fields) : (g.set f v).reset = g.reset := by
  unfold Grid.reset
  rw [grid_set_mutable]
  exact foldl_setZero_absorb g.mutable_fields g f v hf

/-- Any fold of writes to mutable fields leaves `reset` (and the cached
mutable-field list) unchanged. -/
theorem foldl_set_mem_reset (ps : List (Field × Nat)) :
    ∀ (g : Grid), (∀ p ∈ ps, p.1 ∈ g.mutable_fields) →
      (ps.foldl (fun g' fd => g'.set fd.1 fd.2) g).mutable_fields = g.mutable_fields
      ∧ (ps.foldl (fun g' fd => g'.set fd.1 fd.2) g).reset = g.reset := by
  induction ps with
  | nil => intro g _; exact ⟨rfl, rfl⟩
  | cons p ps ih =>
    intro g hmem
    simp only [List.foldl_cons]
    have h1 := ih (g.set p.1 p.2) (fun q hq => hmem q (List.mem_cons_of_mem p hq))
    exact ⟨h1.1.trans (grid_set_mutable g p.1 p.2),
      h1.2.trans (grid_set_mem_reset g p.1 p.2 (hmem p (List.mem_cons_self p ps)))⟩

/-- A freshly constructed grid's mutable fields all hold 0. -/
theorem new_mutable_zero (cells : List (List Nat)) (f : Field)
    (hf : f ∈ (Grid.new cells).mutable_fields) : (Grid.new cells).get f = 0 :=
  ((mem_getMutableFields cells f).1 hf).2.2

/-- Resetting a freshly read grid is the identity. -/
theorem reset_new (cells : List (List Nat)) : (Grid.new cells).reset = Grid.new cells := by
  unfold Grid.reset
  have : ∀ (l : List Field) (g : Grid), (∀ f ∈ l, g.get f = 0) →
      l.foldl (fun g' x => g'.set x 0) g = g := by
    intro l
    induction l with
    | nil => intro g _; rfl
    | cons m l ih =>
      intro g hl
      simp only [List.foldl_cons]
      have hm : g.set m 0 = g := by
        rw [← hl m (List.mem_cons_self m l), grid_set_get_self]
      rw [hm]
      exact ih g (fun f hf => hl f (List.mem_cons_of_mem m hf))
  exact this _ _ (new_mutable_zero cells)

/-- The sudoku carried by a Backtracing outcome. -/
def BTResult.state : BTResult → Sudoku
  | .ok s _ => s
  | .indexUnderflow s _ => s
  | .indexOOB s _ => s
  | .outOfFuel s _ _ => s

/-- The sudoku carried by a Monte Carlo outcome. -/
def MCResult.state : MCResult → Sudoku
  | .ok s _ => s
  | .panicked s _ => s
  | .outOfFuel s _ => s
  | .initPanic => ⟨Grid.new []⟩

/-- The backtracking loop writes only to mutable fields: the carried
grid's reset and mutable-field list never change. -/
theorem btLoop_reset (fuel : Nat) :
    ∀ (s : Sudoku) (index tries max_tries : Nat),
      ((btLoop fuel s index tries max_tries).state).grid.mutable_fields =
        s.grid.mutable_fields
      ∧ ((btLoop fuel s index tries max_tries).state).grid.reset = s.grid.reset := by
  induction fuel with
  | zero => intro s index tries mt; exact ⟨rfl, rfl⟩
  | succ fuel ih =>
    intro s index tries mt
    show (BTResult.state (btLoop (fuel + 1) s index tries mt)).grid.mutable_fields = _ ∧ _
    rw [btLoop]
    dsimp only
    split
    · exact ⟨rfl, rfl⟩
    · split
      · exact ⟨rfl, rfl⟩
      · rename_i f hf
        have hfm : f ∈ s.grid.mutable_fields := List.get?_mem hf
        split
        · split
          · exact ⟨grid_set_mutable s.grid f 0, grid_set_mem_reset s.grid f 0 hfm⟩
          · split
            · exact ⟨grid_set_mutable s.grid f 0, grid_set_mem_reset s.grid f 0 hfm⟩
            · have h1 := ih ⟨s.grid.set f 0⟩ (index - 1) (tries + 1) mt
              exact ⟨h1.1.trans (grid_set_mutable s.grid f 0),
                h1.2.trans (grid_set_mem_reset s.grid f 0 hfm)⟩
        · rename_i v rest hguess
          split
          · exact ⟨grid_set_mutable s.grid f v, grid_set_mem_reset s.grid f v hfm⟩
          · have h1 := ih ⟨s.grid.set f v⟩ (index + 1) (tries + 1) mt
            exact ⟨h1.1.trans (grid_set_mutable s.grid f v),
              h1.2.trans (grid_set_mem_reset s.grid f v hfm)⟩

/-- Phase-1 initialisation of one parcel writes only to mutable fields. -/
theorem mcInitParcel_reset (g g' : Grid) (pi : Nat) (h : mcInitParcel g pi = some g') :
    g'.mutable_fields = g.mutable_fields ∧ g'.reset = g.reset := by
  unfold mcInitParcel at h
  dsimp only at h
  split at h
  · cases h
    apply foldl_set_mem_reset
    intro p hp
    have hmem := (List.of_mem_zip hp).1
    have := (List.mem_filter.1 hmem).2
    simpa [List.contains, List.elem_eq_mem] using this
  · cases h

/-- Phase 1 writes only to mutable fields. -/
theorem mcInit_reset (g g' : Grid) (h : mcInit g = some g') :
    g'.mutable_fields = g.mutable_fields ∧ g'.reset = g.reset := by
  have key : ∀ (l : List Nat) (g g' : Grid),
      l.foldl (fun og pi => og.bind fun gg => mcInitParcel gg pi) (some g) = some g' →
      g'.mutable_fields = g.mutable_fields ∧ g'.reset = g.reset := by
    intro l
    induction l with
    | nil => intro g g' h; cases h; exact ⟨rfl, rfl⟩
    | cons pi l ih =>
      intro g g' h
      simp only [List.foldl_cons, Option.some_bind] at h
      rcases hp : mcInitParcel g pi with _ | g1
      · rw [hp] at h
        have : ∀ (l' : List Nat),
            l'.foldl (fun og pi => og.bind fun gg => mcInitParcel gg pi)
              (none : Option Grid) = none := by
          intro l'
          induction l' with
          | nil => rfl
          | cons x xs ihx => simpa using ihx
        rw [this l] at h
        cases h
      · rw [hp] at h
        have h1 := ih g1 g' h
        have h2 := mcInitParcel_reset g g1 pi hp
        exact ⟨h1.1.trans h2.1, h1.2.trans h2.2⟩
  exact key (List.range 9) g g' h

/-- The annealing loop writes only to the cells named by the directive
stream; when those are all mutable fields, reset and the mutable-field
list never change. -/
theorem mcLoop_reset (dirs : Nat → MCDirective) (M : List Field)
    (HD : ∀ (n : Nat) (f : Field), f ∈ (dirs n).shuffled → f ∈ M) (fuel : Nat) :
    ∀ (s : Sudoku) (energy_last : Int) (tries max_tries : Nat),
      s.grid.mutable_fields = M →
      ((mcLoop dirs fuel s energy_last tries max_tries).state).grid.mutable_fields = M
      ∧ ((mcLoop dirs fuel s energy_last tries max_tries).state).grid.reset =
          s.grid.reset := by
  induction fuel with
  | zero => intro s e tries mt hM; exact ⟨hM, rfl⟩
  | succ fuel ih =>
    intro s e tries mt hM
    show (MCResult.state (mcLoop dirs (fuel + 1) s e tries mt)).grid.mutable_fields = M ∧ _
    rw [mcLoop]
    dsimp only
    split
    · exact ⟨hM, rfl⟩
    · split
      · rename_i f1 f2 rest hshuf
        have hf1 : f1 ∈ s.grid.mutable_fields := by
          rw [hM]; exact HD tries f1 (by rw [hshuf]; exact List.mem_cons_self _ _)
        have hf2 : f2 ∈ s.grid.mutable_fields := by
          rw [hM]
          exact HD tries f2 (by rw [hshuf]; exact List.mem_cons_of_mem _ (List.mem_cons_self _ _))
        have hf2' : f2 ∈ (s.grid.set f1 (s.grid.get f2)).mutable_fields := by
          rw [grid_set_mutable]; exact hf2
        have hswap :
            ((s.grid.set f1 (s.grid.get f2)).set f2 (s.grid.get f1)).reset = s.grid.reset := by
          rw [grid_set_mem_reset _ f2 _ hf2', grid_set_mem_reset _ f1 _ hf1]
        have hswapM :
            ((s.grid.set f1 (s.grid.get f2)).set f2 (s.grid.get f1)).mutable_fields = M := hM
        split
        · rename_i hbreak
          split
          · rename_i hrej
            constructor
            · exact hM
            · show ((((s.grid.set f1 _).set f2 _).set f1 _).set f2 _).reset = _
              rw [grid_set_mem_reset _ f2 _ (by rw [grid_set_mutable]; exact hf2),
                grid_set_mem_reset _ f1 _ (by rw [grid_set_mutable, grid_set_mutable]; exact hf1),
                hswap]
          · exact ⟨hswapM, hswap⟩
        · split
          · rename_i hrej
            have h1 := ih ⟨(((s.grid.set f1 (s.grid.get f2)).set f2 (s.grid.get f1)).set f1
                (s.grid.get f1)).set f2 (s.grid.get f2)⟩ e (tries + 1) mt hM
            refine ⟨h1.1, h1.2.trans ?_⟩
            show ((((s.grid.set f1 _).set f2 _).set f1 _).set f2 _).reset = _
            rw [grid_set_mem_reset _ f2 _ (by rw [grid_set_mutable]; exact hf2),
              grid_set_mem_reset _ f1 _ (by rw [grid_set_mutable, grid_set_mutable]; exact hf1),
              hswap]
          · have h1 := ih ⟨(s.grid.set f1 (s.grid.get f2)).set f2 (s.grid.get f1)⟩
              (Sudoku.calc_energy ⟨(s.grid.set f1 (s.grid.get f2)).set f2 (s.grid.get f1)⟩)
              (tries + 1) mt hswapM
            exact ⟨h1.1, h1.2.trans hswap⟩
      · exact ⟨hM, rfl⟩

/-! ## C6: solvers only touch mutable fields; `get_unsolved` round-trips -/

/-- C6: for a puzzle freshly populated from a cell matrix, any normal
return of either solver (success or exhaustion, any `max_tries`, any
directive stream whose shuffled lists name only mutable fields) satisfies
`get_unsolved = the grid immediately after read`: solvers write only
mutable fields and `reset` zeroes exactly those. -/
theorem c6_get_unsolved_roundtrip (cells : List (List Nat)) :
    (∀ (max_tries t : Nat) (s' : Sudoku),
      Backtracing.solve ⟨Grid.new cells⟩ max_tries = .ok s' t →
      s'.get_unsolved = Grid.new cells)
    ∧ (∀ (dirs : Nat → MCDirective) (max_tries t : Nat) (s' : Sudoku),
      (∀ (n : Nat) (f : Field), f ∈ (dirs n).shuffled → f ∈ (Grid.new cells).mutable_fields) →
      Montecarlo.solve dirs ⟨Grid.new cells⟩ max_tries = .ok s' t →
      s'.get_unsolved = Grid.new cells) := by
  constructor
  · intro mt t s' h
    have h1 := btLoop_reset (mt + 1) ⟨Grid.new cells⟩ 0 0 mt
    unfold Backtracing.solve at h
    rw [h] at h1
    show s'.grid.reset = Grid.new cells
    exact h1.2.trans (reset_new cells)
  · intro dirs mt t s' HD h
    unfold Montecarlo.solve at h
    rcases hinit : mcInit (Grid.new cells) with _ | g1
    · rw [hinit] at h; cases h
    · rw [hinit] at h
      dsimp only at h
      have h2 := mcInit_reset (Grid.new cells) g1 hinit
      have h1 := mcLoop_reset dirs (Grid.new cells).mutable_fields
        (fun n f hf => HD n f hf) (mt + 1) ⟨g1⟩ (Sudoku.calc_energy ⟨g1⟩) 0 mt h2.1
      rw [h] at h1
      show s'.grid.reset = Grid.new cells
      exact h1.2.trans (h2.2.trans (reset_new cells))

/-- Witness for C6 on the solved puzzle with both solvers. -/
theorem c6_get_unsolved_roundtrip_witness :
    Sudoku.get_unsolved ⟨Grid.new solvedCells⟩ = Grid.new solvedCells
    ∧ Sudoku.get_unsolved ⟨Grid.new solvedCells⟩ = Grid.new solvedCells :=
  ⟨(c6_get_unsolved_roundtrip solvedCells).1 5 0 ⟨Grid.new solvedCells⟩ rfl,
   (c6_get_unsolved_roundtrip solvedCells).2 (fun _ => ⟨0, [], true⟩) 5 0
     ⟨Grid.new solvedCells⟩ (fun _ f hf => absurd hf (List.not_mem_nil f)) rfl⟩

/-! ## Shape and parcel-structure lemmas -/

/-- Well-formedness of a 9x9 grid: nine rows of nine cells. -/
def WF9 (g : Grid) : Prop :=
  g.fields.length = 9 ∧ ∀ row ∈ g.fields, row.length = 9

theorem getD_mem (F : List (List Nat)) (r : Nat) (hr : r < F.length) :
    F.getD r [] ∈ F := by
  rw [List.getD_eq_getElem?_getD, List.getElem?_eq_getElem hr]
  exact List.getElem_mem hr

theorem WF9_set (g : Grid) (f : Field) (v : Nat) (h : WF9 g) : WF9 (g.set f v) := by
  obtain ⟨h1, h2⟩ := h
  by_cases hr : f.row < g.fields.length
  · constructor
    · show (g.fields.set f.row _).length = 9
      rw [List.length_set]
      exact h1
    · intro row hrow
      rcases List.mem_or_eq_of_mem_set hrow with hm | he
      · exact h2 row hm
      · subst he
        rw [List.length_set]
        exact h2 _ (getD_mem g.fields f.row hr)
  · show WF9 ⟨g.fields.set f.row _, _⟩
    rw [List.set_eq_of_length_le (Nat.le_of_not_lt hr)]
    exact ⟨h1, h2⟩

theorem WF9_row_len (g : Grid) (h : WF9 g) (r : Nat) (hr : r < 9) :
    (g.fields.getD r []).length = 9 := by
  have hr' : r < g.fields.length := by rw [h.1]; exact hr
  exact h.2 _ (getD_mem g.fields r hr')

theorem grid_get_set_self (g : Grid) (f : Field) (v : Nat)
    (hr : f.row < g.fields.length) (hc : f.column < (g.fields.getD f.row []).length) :
    (g.set f v).get f = v := by
  obtain ⟨F, M⟩ := g
  obtain ⟨r, c⟩ := f
  simp only [Grid.set, Grid.get] at *
  rw [getD_set_self F r _ (fun h => absurd hr (Nat.not_lt.2 h)),
    List.getD_eq_getElem?_getD, List.getElem?_set_self hc]
  rfl

theorem grid_get_set_self9 (g : Grid) (f : Field) (v : Nat) (hWF : WF9 g)
    (hr : f.row < 9) (hc : f.column < 9) : (g.set f v).get f = v :=
  grid_get_set_self g f v (by rw [hWF.1]; exact hr)
    (by rw [WF9_row_len g hWF f.row hr]; exact hc)

theorem grid_get_set_ne (g : Grid) (f f' : Field) (v : Nat) (h : f ≠ f') :
    (g.set f v).get f' = g.get f' := by
  obtain ⟨F, M⟩ := g
  obtain ⟨r1, c1⟩ := f
  obtain ⟨r2, c2⟩ := f'
  simp only [Grid.set, Grid.get]
  by_cases hrr : r1 = r2
  · subst hrr
    have hcc : c1 ≠ c2 := fun hc => h (by rw [hc])
    rw [getD_set_self F r1 _ (fun hh => by rw [getD_len_le F r1 hh, list_set_nil]),
      List.getD_eq_getElem?_getD, List.getElem?_set_ne hcc, ← List.getD_eq_getElem?_getD]
  · rw [getD_set_ne F r1 r2 _ hrr]

/-- The nine coordinates of a parcel, written out. -/
theorem get_parcel_fields_eq (pi : Nat) :
    Grid.get_parcel_fields pi =
      [⟨(pi / 3) * 3, (pi % 3) * 3⟩, ⟨(pi / 3) * 3, (pi % 3) * 3 + 1⟩,
       ⟨(pi / 3) * 3, (pi % 3) * 3 + 2⟩, ⟨(pi / 3) * 3 + 1, (pi % 3) * 3⟩,
       ⟨(pi / 3) * 3 + 1, (pi % 3) * 3 + 1⟩, ⟨(pi / 3) * 3 + 1, (pi % 3) * 3 + 2⟩,
       ⟨(pi / 3) * 3 + 2, (pi % 3) * 3⟩, ⟨(pi / 3) * 3 + 2, (pi % 3) * 3 + 1⟩,
       ⟨(pi / 3) * 3 + 2, (pi % 3) * 3 + 2⟩] := rfl

theorem parcel_index_of_mem (pi : Nat) (hpi : pi < 9) (f : Field)
    (hf : f ∈ Grid.get_parcel_fields pi) :
    Grid.get_parcel_index f = pi ∧ f.row < 9 ∧ f.column < 9 := by
  rw [get_parcel_fields_eq] at hf
  simp only [List.mem_cons, List.not_mem_nil, or_false] at hf
  rcases hf with h | h | h | h | h | h | h | h | h <;> subst h <;>
    refine ⟨?_, ?_, ?_⟩ <;> dsimp only [Grid.get_parcel_index] <;> omega

theorem mem_parcel_fields_self (f : Field) (hr : f.row < 9) (hc : f.column < 9) :
    f ∈ Grid.get_parcel_fields (Grid.get_parcel_index f) := by
  obtain ⟨r, c⟩ := f
  dsimp only [Grid.get_parcel_index] at *
  rw [get_parcel_fields_eq]
  simp only [List.mem_cons, List.not_mem_nil, or_false, Field.mk.injEq]
  omega

theorem parcel_fields_nodup (pi : Nat) : (Grid.get_parcel_fields pi).Nodup := by
  rw [get_parcel_fields_eq]
  simp only [List.nodup_cons, List.mem_cons, List.not_mem_nil, or_false,
    List.nodup_nil, and_true, Field.mk.injEq, not_or, not_and, not_false_eq_true]
  omega

/-- Filtering a duplicate-free list by membership in a duplicate-free
subset is a permutation of the subset. -/
theorem filter_mem_perm (L U : List Nat) (hL : L.Nodup) (hU : U.Nodup)
    (hsub : ∀ u ∈ U, u ∈ L) : (L.filter (fun x => U.contains x)).Perm U := by
  rw [List.perm_ext_iff_of_nodup (hL.filter _) hU]
  intro a
  simp only [List.mem_filter, List.contains, List.elem_eq_mem, decide_eq_true_eq]
  exact ⟨fun h => h.2, fun h => ⟨hsub a h, h⟩⟩

/-- Folding the writes `mfs[i] := diff[i]` (via `zip`) sets exactly those
cells: reads of the written cells give `diff`, all other cells are
unchanged, and shape/mutable-list are preserved. -/
theorem foldl_zip_assign (mfs : List Field) (diff : List Nat) :
    ∀ (g : Grid), mfs.Nodup → mfs.length = diff.length → WF9 g →
    (∀ f ∈ mfs, f.row < 9 ∧ f.column < 9) →
    (mfs.map ((mfs.zip diff).foldl (fun g' fd => g'.set fd.1 fd.2) g).get = diff)
    ∧ (∀ x : Field, x ∉ mfs →
        ((mfs.zip diff).foldl (fun g' fd => g'.set fd.1 fd.2) g).get x = g.get x)
    ∧ WF9 ((mfs.zip diff).foldl (fun g' fd => g'.set fd.1 fd.2) g)
    ∧ ((mfs.zip diff).foldl (fun g' fd => g'.set fd.1 fd.2) g).mutable_fields =
        g.mutable_fields := by
  induction mfs generalizing diff with
  | nil =>
    intro g _ hlen hWF _
    cases diff with
    | nil => exact ⟨rfl, fun x _ => rfl, hWF, rfl⟩
    | cons v d => simp at hlen
  | cons f mfs ih =>
    intro g hnd hlen hWF hb
    cases diff with
    | nil => simp at hlen
    | cons v diff =>
      simp only [List.zip_cons_cons, List.foldl_cons, List.map_cons]
      obtain ⟨hfnot, hndmfs⟩ := List.nodup_cons.1 hnd
      have hWF1 := WF9_set g f v hWF
      have hlen' : mfs.length = diff.length := by simpa using hlen
      have hb' : ∀ x ∈ mfs, x.row < 9 ∧ x.column < 9 :=
        fun x hx => hb x (List.mem_cons_of_mem f hx)
      have IH := ih diff (g.set f v) hndmfs hlen' hWF1 hb'
      refine ⟨?_, ?_, IH.2.2.1, IH.2.2.2.trans (grid_set_mutable g f v)⟩
      · have hbf := hb f (List.mem_cons_self f mfs)
        rw [IH.1, IH.2.1 f hfnot, grid_get_set_self9 g f v hWF hbf.1 hbf.2]
      · intro x hx
        have hxf : x ≠ f := fun h => hx (h ▸ List.mem_cons_self f mfs)
        have hxm : x ∉ mfs := fun h => hx (List.mem_cons_of_mem f h)
        rw [IH.2.1 x hxm, grid_get_set_ne g f x v (fun h => hxf h.symm)]

/-! ## Phase-1 initialisation: per-parcel digit permutation -/

set_option maxHeartbeats 2000000 in
/-- Phase-1 initialisation of a single parcel whose pre-filled non-zero
digits are pairwise distinct: the missing-digit list has exactly the
length of the parcel's mutable-field list (so `diff[i]` stays in bounds),
every mutable cell receives a missing digit, and the parcel ends up
containing each digit 1-9 exactly once.  Cells outside the parcel are
untouched. -/
theorem mcInitParcel_spec (g : Grid) (pi : Nat) (hpi : pi < 9) (hWF : WF9 g)
    (Hmut : ∀ f ∈ Grid.get_parcel_fields pi, (f ∈ g.mutable_fields ↔ g.get f = 0))
    (hnodup : ((g.get_parcel pi).flatten.filter (fun v => v ≠ 0)).Nodup)
    (hle9 : ∀ v ∈ (g.get_parcel pi).flatten, v ≤ 9) :
    ∃ g', mcInitParcel g pi = some g'
      ∧ ((g'.get_parcel pi).flatten).Perm [1, 2, 3, 4, 5, 6, 7, 8, 9]
      ∧ (∀ x : Field, x ∉ Grid.get_parcel_fields pi → g'.get x = g.get x)
      ∧ g'.mutable_fields = g.mutable_fields ∧ WF9 g' := by
  have hPFnd := parcel_fields_nodup pi
  have hflat : (g.get_parcel pi).flatten = (Grid.get_parcel_fields pi).map g.get :=
    get_parcel_flatten g pi
  have hU_nodup : (((g.get_parcel pi).flatten.dedup).filter (fun v => 0 < v)).Nodup :=
    (List.nodup_dedup _).filter _
  have hU_mem : ∀ v : Nat, v ∈ ((g.get_parcel pi).flatten.dedup).filter (fun v => 0 < v) ↔
      v ∈ (g.get_parcel pi).flatten ∧ v ≠ 0 := by
    intro v
    simp only [List.mem_filter, List.mem_dedup, decide_eq_true_eq]
    exact ⟨fun h => ⟨h.1, by omega⟩, fun h => ⟨h.1, by omega⟩⟩
  have hUNZ : (((g.get_parcel pi).flatten.dedup).filter (fun v => 0 < v)).Perm
      ((g.get_parcel pi).flatten.filter (fun v => v ≠ 0)) := by
    rw [List.perm_ext_iff_of_nodup hU_nodup hnodup]
    intro a
    rw [hU_mem a]
    simp only [List.mem_filter, decide_eq_true_eq]
  have hU_sub : ∀ u ∈ ((g.get_parcel pi).flatten.dedup).filter (fun v => 0 < v),
      u ∈ ([1, 2, 3, 4, 5, 6, 7, 8, 9] : List Nat) := by
    intro u hu
    obtain ⟨h1, h2⟩ := (hU_mem u).1 hu
    have h9 := hle9 u h1
    simp only [List.mem_cons, List.not_mem_nil, or_false]
    omega
  have hfilterU : (([1, 2, 3, 4, 5, 6, 7, 8, 9] : List Nat).filter
        (fun v => (((g.get_parcel pi).flatten.dedup).filter (fun v => 0 < v)).contains v)).Perm
      (((g.get_parcel pi).flatten.dedup).filter (fun v => 0 < v)) :=
    filter_mem_perm _ _ (by decide) hU_nodup hU_sub
  have hsplit9 : (([1, 2, 3, 4, 5, 6, 7, 8, 9] : List Nat).filter
        (fun v => (((g.get_parcel pi).flatten.dedup).filter (fun v => 0 < v)).contains v)).length
      + (([1, 2, 3, 4, 5, 6, 7, 8, 9] : List Nat).filter
        (fun v => !((((g.get_parcel pi).flatten.dedup).filter (fun v => 0 < v)).contains v))).length
      = 9 := by
    have h := (List.filter_append_perm
        (fun v => (((g.get_parcel pi).flatten.dedup).filter (fun v => 0 < v)).contains v)
        ([1, 2, 3, 4, 5, 6, 7, 8, 9] : List Nat)).length_eq
    rw [List.length_append] at h
    simpa using h
  -- the two complementary filters of the parcel's fields
  have hmfs_eq : g.get_mutable_fields_of_parcel pi =
      (Grid.get_parcel_fields pi).filter (fun f => decide (g.get f = 0)) := by
    unfold Grid.get_mutable_fields_of_parcel
    refine List.filter_congr (fun f hf => ?_)
    have h := Hmut f hf
    by_cases h0 : g.get f = 0 <;> simp [List.contains, List.elem_eq_mem, h0, h]
  have hnm_eq : (Grid.get_parcel_fields pi).filter
        (fun f => !(g.mutable_fields.contains f)) =
      (Grid.get_parcel_fields pi).filter (fun f => !decide (g.get f = 0)) := by
    refine List.filter_congr (fun f hf => ?_)
    have h := Hmut f hf
    by_cases h0 : g.get f = 0 <;> simp [List.contains, List.elem_eq_mem, h0, h]
  have hNZ_map : (g.get_parcel pi).flatten.filter (fun v => v ≠ 0) =
      ((Grid.get_parcel_fields pi).filter (fun f => !decide (g.get f = 0))).map g.get := by
    rw [hflat, List.filter_map]
    refine congrArg (List.map g.get) (List.filter_congr (fun f _ => ?_))
    simp [Function.comp, decide_not]
  have hsplitPF : (g.get_mutable_fields_of_parcel pi ++ (Grid.get_parcel_fields pi).filter
      (fun f => !(g.mutable_fields.contains f))).Perm (Grid.get_parcel_fields pi) := by
    unfold Grid.get_mutable_fields_of_parcel
    have h := List.filter_append_perm
      (fun f => g.mutable_fields.contains f) (Grid.get_parcel_fields pi)
    simpa using h
  have hPF9 : (Grid.get_parcel_fields pi).length = 9 := by
    rw [get_parcel_fields_eq]
    rfl
  have hsplitPFlen : (g.get_mutable_fields_of_parcel pi).length +
      ((Grid.get_parcel_fields pi).filter
        (fun f => !(g.mutable_fields.contains f))).length = 9 := by
    have h := hsplitPF.length_eq
    rw [List.length_append, hPF9] at h
    exact h
  have hUlen : (((g.get_parcel pi).flatten.dedup).filter (fun v => 0 < v)).length =
      ((Grid.get_parcel_fields pi).filter (fun f => !(g.mutable_fields.contains f))).length := by
    rw [hUNZ.length_eq, hNZ_map, List.length_map, hnm_eq]
  have hlen_eq : (g.get_mutable_fields_of_parcel pi).length =
      (([1, 2, 3, 4, 5, 6, 7, 8, 9] : List Nat).filter
        (fun v => !((((g.get_parcel pi).flatten.dedup).filter (fun v => 0 < v)).contains v))).length := by
    have hflen := hfilterU.length_eq
    omega
  generalize hD : (([1, 2, 3, 4, 5, 6, 7, 8, 9] : List Nat).filter
      (fun v => !((((g.get_parcel pi).flatten.dedup).filter (fun v => 0 < v)).contains v))) = DL
    at hlen_eq
  obtain ⟨hmap, hunch, hWF', hmut'⟩ := foldl_zip_assign (g.get_mutable_fields_of_parcel pi)
    DL g (by rw [hmfs_eq]; exact hPFnd.filter _) hlen_eq hWF
    (fun f hf => (parcel_index_of_mem pi hpi f
      (List.mem_filter.1 (by rw [hmfs_eq] at hf; exact hf)).1).2)
  refine ⟨((g.get_mutable_fields_of_parcel pi).zip DL).foldl
      (fun g' fd => g'.set fd.1 fd.2) g, ?_, ?_, ?_, hmut', hWF'⟩
  · unfold mcInitParcel
    dsimp only
    rw [hD, if_pos (Nat.le_of_eq hlen_eq)]
  · rw [get_parcel_flatten _ pi]
    refine ((List.Perm.map _ hsplitPF).symm.trans ?_)
    rw [List.map_append, hmap]
    have htail : (((Grid.get_parcel_fields pi).filter
          (fun f => !(g.mutable_fields.contains f))).map
        (((g.get_mutable_fields_of_parcel pi).zip DL).foldl
          (fun g' fd => g'.set fd.1 fd.2) g).get) =
        (((Grid.get_parcel_fields pi).filter
          (fun f => !(g.mutable_fields.contains f))).map g.get) := by
      refine List.map_congr_left (fun x hx => ?_)
      refine hunch x (fun hxm => ?_)
      have h1 := (List.mem_filter.1 hx).2
      have h2 := (List.mem_filter.1 (by rw [hmfs_eq] at hxm; exact hxm)).2
      have h3 := Hmut x (List.mem_filter.1 hx).1
      rw [decide_eq_true_eq] at h2
      simp only [List.contains, List.elem_eq_mem, Bool.not_eq_true',
        decide_eq_false_iff_not] at h1
      exact h1 (h3.2 h2)
    rw [htail, hnm_eq, ← hNZ_map]
    refine (List.Perm.append_left _ (hUNZ.symm.trans hfilterU.symm)).trans ?_
    refine List.perm_append_comm.trans ?_
    rw [← hD]
    exact List.filter_append_perm _ _
  · intro x hx
    refine hunch x (fun hxm => ?_)
    exact hx ((List.mem_filter.1 (by rw [hmfs_eq] at hxm; exact hxm)).1)

theorem get_parcel_congr (g1 g2 : Grid) (pi : Nat)
    (h : ∀ f ∈ Grid.get_parcel_fields pi, g1.get f = g2.get f) :
    (g1.get_parcel pi).flatten = (g2.get_parcel pi).flatten := by
  rw [get_parcel_flatten, get_parcel_flatten]
  exact List.map_congr_left h

theorem parcels_disjoint (pi pj : Nat) (hpi : pi < 9) (hpj : pj < 9) (hne : pi ≠ pj)
    (f : Field) (hf : f ∈ Grid.get_parcel_fields pi) : f ∉ Grid.get_parcel_fields pj :=
  fun hg => hne ((parcel_index_of_mem pi hpi f hf).1.symm.trans
    (parcel_index_of_mem pj hpj f hg).1)

/-- Phase 1 over a duplicate-free list of parcel indices: every processed
parcel becomes a permutation of 1..9, cells outside the processed parcels
are untouched. -/
theorem mcInit_fold_spec (l : List Nat) :
    ∀ (g : Grid), WF9 g → l.Nodup → (∀ pi ∈ l, pi < 9) →
    (∀ pi ∈ l, ∀ f ∈ Grid.get_parcel_fields pi, (f ∈ g.mutable_fields ↔ g.get f = 0)) →
    (∀ pi ∈ l, ((g.get_parcel pi).flatten.filter (fun v => v ≠ 0)).Nodup) →
    (∀ pi ∈ l, ∀ v ∈ (g.get_parcel pi).flatten, v ≤ 9) →
    ∃ g', l.foldl (fun og pi => og.bind fun gg => mcInitParcel gg pi) (some g) = some g'
      ∧ (∀ pi ∈ l, ((g'.get_parcel pi).flatten).Perm [1, 2, 3, 4, 5, 6, 7, 8, 9])
      ∧ (∀ x : Field, (∀ pi ∈ l, x ∉ Grid.get_parcel_fields pi) → g'.get x = g.get x)
      ∧ g'.mutable_fields = g.mutable_fields ∧ WF9 g' := by
  induction l with
  | nil =>
    intro g hWF _ _ _ _ _
    exact ⟨g, rfl, fun pi hpi => absurd hpi (List.not_mem_nil pi),
      fun x _ => rfl, rfl, hWF⟩
  | cons pi l ih =>
    intro g hWF hnd hlt Hmut hnodup hle9
    have hpi := hlt pi (List.mem_cons_self pi l)
    obtain ⟨hpinotin, hndl⟩ := List.nodup_cons.1 hnd
    obtain ⟨g1, hg1, hperm1, hunch1, hmut1, hWF1⟩ :=
      mcInitParcel_spec g pi hpi hWF (Hmut pi (List.mem_cons_self pi l))
        (hnodup pi (List.mem_cons_self pi l)) (hle9 pi (List.mem_cons_self pi l))
    have hdis : ∀ pj ∈ l, ∀ f ∈ Grid.get_parcel_fields pj, f ∉ Grid.get_parcel_fields pi :=
      fun pj hpj f hf =>
        parcels_disjoint pj pi (hlt pj (List.mem_cons_of_mem pi hpj)) hpi
          (fun he => hpinotin (he ▸ hpj)) f hf
    have hunch1' : ∀ pj ∈ l, ∀ f ∈ Grid.get_parcel_fields pj, g1.get f = g.get f :=
      fun pj hpj f hf => hunch1 f (hdis pj hpj f hf)
    have hflateq : ∀ pj ∈ l, (g1.get_parcel pj).flatten = (g.get_parcel pj).flatten :=
      fun pj hpj => get_parcel_congr g1 g pj (hunch1' pj hpj)
    obtain ⟨g', hg', hperm', hunch', hmut', hWF'⟩ := ih g1 hWF1 hndl
      (fun pj hpj => hlt pj (List.mem_cons_of_mem pi hpj))
      (fun pj hpj f hf => by
        rw [hmut1, hunch1' pj hpj f hf]
        exact Hmut pj (List.mem_cons_of_mem pi hpj) f hf)
      (fun pj hpj => by rw [hflateq pj hpj]; exact hnodup pj (List.mem_cons_of_mem pi hpj))
      (fun pj hpj => by rw [hflateq pj hpj]; exact hle9 pj (List.mem_cons_of_mem pi hpj))
    refine ⟨g', ?_, ?_, ?_, hmut'.trans hmut1, hWF'⟩
    · rw [List.foldl_cons, Option.some_bind, hg1]
      exact hg'
    · intro pj hpj
      rcases List.mem_cons.1 hpj with he | hm
      · subst he
        have : (g'.get_parcel pj).flatten = (g1.get_parcel pj).flatten := by
          refine get_parcel_congr g' g1 pj (fun f hf => ?_)
          refine hunch' f (fun pk hpk => ?_)
          exact fun hc => (hdis pk hpk f hc) hf
        rw [this]
        exact hperm1
      · exact hperm' pj hm
    · intro x hx
      rw [hunch' x (fun pk hpk => hx pk (List.mem_cons_of_mem pi hpk))]
      exact hunch1 x (hx pi (List.mem_cons_self pi l))

/-- Swapping the values of two cells of a list of distinct in-range cells
permutes the list of read values. -/
theorem map_get_swap_perm (L : List Field) (hN : L.Nodup) (g : Grid) (f1 f2 : Field)
    (h1 : f1 ∈ L) (h2 : f2 ∈ L) (hWF : WF9 g) (hb : ∀ f ∈ L, f.row < 9 ∧ f.column < 9) :
    (L.map ((g.set f1 (g.get f2)).set f2 (g.get f1)).get).Perm (L.map g.get) := by
  by_cases h12 : f1 = f2
  · subst h12
    have : (g.set f1 (g.get f1)).set f1 (g.get f1) = g := by
      rw [grid_set_get_self, grid_set_get_self]
    rw [this]
  · have hb1 := hb f1 h1
    have hb2 := hb f2 h2
    have hv1 : ((g.set f1 (g.get f2)).set f2 (g.get f1)).get f1 = g.get f2 := by
      rw [grid_get_set_ne _ f2 f1 _ (fun h => h12 h.symm),
        grid_get_set_self9 g f1 _ hWF hb1.1 hb1.2]
    have hv2 : ((g.set f1 (g.get f2)).set f2 (g.get f1)).get f2 = g.get f1 :=
      grid_get_set_self9 _ f2 _ (WF9_set g f1 _ hWF) hb2.1 hb2.2
    have hL1 : L.Perm (f1 :: L.erase f1) := List.perm_cons_erase h1
    have h2' : f2 ∈ L.erase f1 := (hN.mem_erase_iff).2 ⟨fun h => h12 h.symm, h2⟩
    have hL2 : (L.erase f1).Perm (f2 :: (L.erase f1).erase f2) := List.perm_cons_erase h2'
    have hrest : ∀ x ∈ (L.erase f1).erase f2,
        ((g.set f1 (g.get f2)).set f2 (g.get f1)).get x = g.get x := by
      intro x hx
      have hx2 := ((hN.erase f1).mem_erase_iff).1 hx
      have hx1 := (hN.mem_erase_iff).1 hx2.2
      rw [grid_get_set_ne _ f2 x _ (fun h => hx2.1 h.symm),
        grid_get_set_ne _ f1 x _ (fun h => hx1.1 h.symm)]
    have hchain : L.Perm (f1 :: f2 :: (L.erase f1).erase f2) :=
      hL1.trans (List.Perm.cons f1 hL2)
    refine ((hchain.map _).trans ?_).trans (hchain.map g.get).symm
    simp only [List.map_cons, hv1, hv2]
    rw [List.map_congr_left hrest]
    exact List.Perm.swap (g.get f1) (g.get f2) _

/-! ## C4: phase 1 yields per-parcel digit permutations, preserved by swaps -/

/-- C4: (a) for every 9x9 input whose parcels' pre-filled non-zero digits
are pairwise distinct (values at most 9), Monte Carlo phase-1
initialisation succeeds and leaves every parcel containing each digit 1-9
exactly once; (b) the swap of an annealing step — two cells of one
parcel's mutable fields, whether kept or swapped back — preserves that
per-parcel property. -/
theorem c4_phase1_and_swap_invariant :
    (∀ cells : List (List Nat), WF9 (Grid.new cells) →
      (∀ v ∈ cells.flatten, v ≤ 9) →
      (∀ pi, pi < 9 →
        (((Grid.new cells).get_parcel pi).flatten.filter (fun v => v ≠ 0)).Nodup) →
      ∃ g', mcInit (Grid.new cells) = some g'
        ∧ ∀ pi, pi < 9 → ((g'.get_parcel pi).flatten).Perm [1, 2, 3, 4, 5, 6, 7, 8, 9])
    ∧ (∀ (s : Sudoku) (pi : Nat) (f1 f2 : Field) (reject : Bool),
        pi < 9 → WF9 s.grid →
        f1 ∈ s.grid.get_mutable_fields_of_parcel pi →
        f2 ∈ s.grid.get_mutable_fields_of_parcel pi →
        (∀ pj, pj < 9 → ((s.grid.get_parcel pj).flatten).Perm [1, 2, 3, 4, 5, 6, 7, 8, 9]) →
        ∀ pj, pj < 9 →
          (((mcStepState s f1 f2 reject).grid.get_parcel pj).flatten).Perm
            [1, 2, 3, 4, 5, 6, 7, 8, 9]) := by
  constructor
  · intro cells hWF hval hpre
    have hget9 : ∀ f : Field, (Grid.new cells).get f ≤ 9 := by
      intro f
      show (cells.getD f.row []).getD f.column 0 ≤ 9
      by_cases hr : f.row < cells.length
      · by_cases hc : f.column < (cells.getD f.row []).length
        · rw [List.getD_eq_getElem?_getD, List.getElem?_eq_getElem hc]
          refine hval _ (List.mem_flatten.2 ⟨cells.getD f.row [], getD_mem cells f.row hr, ?_⟩)
          exact List.getElem_mem hc
        · rw [List.getD_eq_getElem?_getD, List.getElem?_eq_none (Nat.le_of_not_lt hc)]
          exact Nat.zero_le 9
      · rw [getD_len_le cells f.row (Nat.le_of_not_lt hr)]
        exact Nat.zero_le 9
    obtain ⟨g', hg', hperm, _, _, _⟩ := mcInit_fold_spec (List.range 9) (Grid.new cells) hWF
      (List.nodup_range 9) (fun pi hpi => List.mem_range.1 hpi)
      (fun pi hpi f hf => by
        have hb := (parcel_index_of_mem pi (List.mem_range.1 hpi) f hf).2
        constructor
        · intro hm
          exact ((mem_getMutableFields cells f).1 hm).2.2
        · intro h0
          exact (mem_getMutableFields cells f).2 ⟨hb.1, hb.2, h0⟩)
      (fun pi hpi => hpre pi (List.mem_range.1 hpi))
      (fun pi hpi v hv => by
        rw [get_parcel_flatten] at hv
        obtain ⟨f, _, hfv⟩ := List.mem_map.1 hv
        exact hfv ▸ hget9 f)
    exact ⟨g', hg', fun pi hpi => hperm pi (List.mem_range.2 hpi)⟩
  · intro s pi f1 f2 reject hpi hWF hm1 hm2 hall pj hpj
    have hf1P : f1 ∈ Grid.get_parcel_fields pi := (List.mem_filter.1 hm1).1
    have hf2P : f2 ∈ Grid.get_parcel_fields pi := (List.mem_filter.1 hm2).1
    have hb1 := (parcel_index_of_mem pi hpi f1 hf1P).2
    have hb2 := (parcel_index_of_mem pi hpi f2 hf2P).2
    cases reject with
    | true =>
      have hres : mcStepState s f1 f2 true = s := by
        show (⟨_⟩ : Sudoku) = s
        rw [grid_swap_restore s.grid f1 f2]
      rw [hres]
      exact hall pj hpj
    | false =>
      show (((((s.grid.set f1 (s.grid.get f2)).set f2
        (s.grid.get f1))).get_parcel pj).flatten).Perm _
      by_cases hpij : pj = pi
      · subst hpij
        rw [get_parcel_flatten]
        refine (map_get_swap_perm (Grid.get_parcel_fields pj) (parcel_fields_nodup pj)
          s.grid f1 f2 hf1P hf2P hWF
          (fun f hf => (parcel_index_of_mem pj hpj f hf).2)).trans ?_
        rw [← get_parcel_flatten]
        exact hall pj hpj
      · have hunch : ∀ f ∈ Grid.get_parcel_fields pj,
            ((s.grid.set f1 (s.grid.get f2)).set f2 (s.grid.get f1)).get f = s.grid.get f := by
          intro f hf
          have hne1 : f1 ≠ f := fun he =>
            parcels_disjoint pi pj hpi hpj (fun h => hpij h.symm) f1 hf1P (he ▸ hf)
          have hne2 : f2 ≠ f := fun he =>
            parcels_disjoint pi pj hpi hpj (fun h => hpij h.symm) f2 hf2P (he ▸ hf)
          rw [grid_get_set_ne _ f2 f _ hne2, grid_get_set_ne _ f1 f _ hne1]
        rw [get_parcel_congr _ s.grid pj hunch]
        exact hall pj hpj

/-- Witness for C4: phase 1 on the one-empty-cell puzzle, and a swap step
on the phase-1 result of `c9Cells` inside parcel 1. -/
theorem c4_phase1_and_swap_invariant_witness :
    (∃ g', mcInit (Grid.new oneCells) = some g'
      ∧ ∀ pi, pi < 9 → ((g'.get_parcel pi).flatten).Perm [1, 2, 3, 4, 5, 6, 7, 8, 9])
    ∧ (∀ pj, pj < 9 →
        (((mcStepState ⟨c9Init⟩ ⟨0, 3⟩ ⟨0, 4⟩ false).grid.get_parcel pj).flatten).Perm
          [1, 2, 3, 4, 5, 6, 7, 8, 9]) :=
  ⟨c4_phase1_and_swap_invariant.1 oneCells ⟨rfl, by decide⟩ (by decide) (by decide),
   c4_phase1_and_swap_invariant.2 ⟨c9Init⟩ 1 ⟨0, 3⟩ ⟨0, 4⟩ false (by decide) ⟨rfl, by decide⟩
     (by decide) (by decide) (by decide)⟩

/-! ## Infrastructure for the backtracking correctness proof -/

theorem getMutableFields_nodup (cells : List (List Nat)) :
    (Grid.getMutableFields cells).Nodup := by
  unfold Grid.getMutableFields
  rw [List.nodup_flatMap]
  constructor
  · intro r _
    refine List.Nodup.filterMap ?_ (List.nodup_range 9)
    intro a a' b hb hb'
    have ha : b.column = a := by
      split at hb
      · cases hb; rfl
      · cases hb
    have ha' : b.column = a' := by
      split at hb'
      · cases hb'; rfl
      · cases hb'
    omega
  · have hlt := List.pairwise_lt_range 9
    refine hlt.imp ?_
    intro r r' hrr f hf hf'
    have h1 : f.row = r := by
      rcases List.mem_filterMap.1 hf with ⟨c, _, hc⟩
      split at hc
      · cases hc; rfl
      · cases hc
    have h2 : f.row = r' := by
      rcases List.mem_filterMap.1 hf' with ⟨c, _, hc⟩
      split at hc
      · cases hc; rfl
      · cases hc
    omega

theorem parcel_index_lt9 (f : Field) (hr : f.row < 9) (hc : f.column < 9) :
    Grid.get_parcel_index f < 9 := by
  unfold Grid.get_parcel_index
  omega

theorem mem_get_row_iff (g : Grid) (hWF : WF9 g) (r : Nat) (hr : r < 9) (v : Nat) :
    v ∈ g.get_row r ↔ ∃ c, c < 9 ∧ g.get ⟨r, c⟩ = v := by
  unfold Grid.get_row
  rw [List.mem_iff_getElem]
  constructor
  · rintro ⟨c, hc, he⟩
    refine ⟨c, by rw [WF9_row_len g hWF r hr] at hc; exact hc, ?_⟩
    show (g.fields.getD r []).getD c 0 = v
    rw [List.getD_eq_getElem _ _ hc]
    exact he
  · rintro ⟨c, hc, he⟩
    have hc' : c < (g.fields.getD r []).length := by
      rw [WF9_row_len g hWF r hr]
      exact hc
    refine ⟨c, hc', ?_⟩
    rw [← List.getD_eq_getElem _ 0 hc']
    exact he

theorem mem_get_col_iff (g : Grid) (hWF : WF9 g) (c : Nat) (v : Nat) :
    v ∈ g.get_col c ↔ ∃ r, r < 9 ∧ g.get ⟨r, c⟩ = v := by
  unfold Grid.get_col
  rw [List.mem_map]
  constructor
  · rintro ⟨row, hrow, he⟩
    rcases List.mem_iff_getElem.1 hrow with ⟨r, hr, hre⟩
    refine ⟨r, by rw [hWF.1] at hr; exact hr, ?_⟩
    show (g.fields.getD r []).getD c 0 = v
    rw [List.getD_eq_getElem _ _ hr, hre]
    exact he
  · rintro ⟨r, hr, he⟩
    have hr' : r < g.fields.length := by rw [hWF.1]; exact hr
    refine ⟨g.fields[r], List.getElem_mem hr', ?_⟩
    rw [← he]
    show g.fields[r].getD c 0 = (g.fields.getD r []).getD c 0
    rw [List.getD_eq_getElem?_getD g.fields, List.getElem?_eq_getElem hr']
    rfl

theorem mem_parcel_flatten_iff (g : Grid) (pi : Nat) (v : Nat) :
    v ∈ (g.get_parcel pi).flatten ↔ ∃ f ∈ Grid.get_parcel_fields pi, g.get f = v := by
  rw [get_parcel_flatten, List.mem_map]

/-- Membership characterisation of `get_field_guesses`. -/
theorem mem_get_field_guesses (s : Sudoku) (f : Field) (d : Nat) :
    d ∈ s.get_field_guesses f ↔
      1 ≤ d ∧ d ≤ 9
      ∧ d ∉ s.grid.get_row f.row
      ∧ d ∉ s.grid.get_col f.column
      ∧ d ∉ (s.grid.get_parcel (Grid.get_parcel_index f)).flatten := by
  simp only [Sudoku.get_field_guesses, List.mem_filter, Bool.not_eq_true',
    Bool.or_eq_false_iff, List.contains, List.elem_eq_mem, decide_eq_false_iff_not]
  constructor
  · rintro ⟨hd, ⟨h1, h2⟩, h3⟩
    simp only [List.mem_cons, List.not_mem_nil, or_false] at hd
    exact ⟨by omega, by omega, h1, h2, h3⟩
  · rintro ⟨h1, h9, hr, hc, hp⟩
    refine ⟨?_, ⟨hr, hc⟩, hp⟩
    simp only [List.mem_cons, List.not_mem_nil, or_false]
    omega

theorem get_field_guesses_sorted (s : Sudoku) (f : Field) :
    List.Sorted (· < ·) (s.get_field_guesses f) :=
  List.Pairwise.filter _ (by decide)

/-- The head of a nonempty `<`-sorted list is a lower bound. -/
theorem sorted_head_le (v : Nat) (rest : List Nat) (x : Nat)
    (hs : List.Sorted (· < ·) (v :: rest)) (hx : x ∈ v :: rest) : v ≤ x := by
  rcases List.mem_cons.1 hx with he | hm
  · omega
  · exact Nat.le_of_lt ((List.pairwise_cons.1 hs).1 x hm)

theorem has_only_unique_digits_iff (l : List Nat) :
    has_only_unique_digits l = true ↔ (l.filter (fun v => v ≠ 0)).Nodup := by
  unfold has_only_unique_digits
  rw [beq_iff_eq]
  constructor
  · intro h
    rw [← List.dedup_eq_self]
    exact (List.dedup_sublist _).eq_of_length h.symm
  · intro h
    rw [List.dedup_eq_self.2 h]

/-- Semantic duplicate-freedom of the in-range cells: no non-zero value
occurs twice in a row, a column, or a parcel. -/
def NoDups (g : Grid) : Prop :=
  (∀ r c1 c2, r < 9 → c1 < 9 → c2 < 9 → c1 ≠ c2 → g.get ⟨r, c1⟩ ≠ 0 →
    g.get ⟨r, c1⟩ ≠ g.get ⟨r, c2⟩)
  ∧ (∀ c r1 r2, c < 9 → r1 < 9 → r2 < 9 → r1 ≠ r2 → g.get ⟨r1, c⟩ ≠ 0 →
    g.get ⟨r1, c⟩ ≠ g.get ⟨r2, c⟩)
  ∧ (∀ r1 c1 r2 c2, r1 < 9 → c1 < 9 → r2 < 9 → c2 < 9 → ¬(r1 = r2 ∧ c1 = c2) →
    Grid.get_parcel_index ⟨r1, c1⟩ = Grid.get_parcel_index ⟨r2, c2⟩ →
    g.get ⟨r1, c1⟩ ≠ 0 → g.get ⟨r1, c1⟩ ≠ g.get ⟨r2, c2⟩)

/-- A total assignment solving the original puzzle: digits 1-9 everywhere,
extending the pre-filled cells, with no duplicate in any row, column or
parcel. -/
def IsSolution (g₀ : Grid) (t : Field → Nat) : Prop :=
  (∀ r c, r < 9 → c < 9 → 1 ≤ t ⟨r, c⟩ ∧ t ⟨r, c⟩ ≤ 9)
  ∧ (∀ r c, r < 9 → c < 9 → g₀.get ⟨r, c⟩ ≠ 0 → t ⟨r, c⟩ = g₀.get ⟨r, c⟩)
  ∧ (∀ r c1 c2, r < 9 → c1 < 9 → c2 < 9 → c1 ≠ c2 → t ⟨r, c1⟩ ≠ t ⟨r, c2⟩)
  ∧ (∀ c r1 r2, c < 9 → r1 < 9 → r2 < 9 → r1 ≠ r2 → t ⟨r1, c⟩ ≠ t ⟨r2, c⟩)
  ∧ (∀ r1 c1 r2 c2, r1 < 9 → c1 < 9 → r2 < 9 → c2 < 9 → ¬(r1 = r2 ∧ c1 = c2) →
    Grid.get_parcel_index ⟨r1, c1⟩ = Grid.get_parcel_index ⟨r2, c2⟩ →
    t ⟨r1, c1⟩ ≠ t ⟨r2, c2⟩)

theorem grid_get_set_cases (g : Grid) (x : Field) (v : Nat) (f : Field) :
    (g.set x v).get f = g.get f ∨ (g.set x v).get f = v := by
  by_cases hfx : f = x
  · subst hfx
    by_cases hr : f.row < g.fields.length
    · by_cases hc : f.column < (g.fields.getD f.row []).length
      · exact Or.inr (grid_get_set_self g f v hr hc)
      · refine Or.inl ?_
        show ((g.fields.set f.row _).getD f.row []).getD f.column 0 = _
        rw [getD_set_self g.fields f.row _ (fun h => absurd hr (Nat.not_lt.2 h)),
          List.set_eq_of_length_le (Nat.le_of_not_lt hc)]
        rfl
    · refine Or.inl ?_
      show ((g.fields.set f.row _).getD f.row []).getD f.column 0 = _
      rw [List.set_eq_of_length_le (Nat.le_of_not_lt hr)]
      rfl
  · exact Or.inl (grid_get_set_ne g x f v (fun h => hfx h.symm))

theorem NoDups_set_zero (g : Grid) (x : Field) (hND : NoDups g) : NoDups (g.set x 0) := by
  have hv : ∀ f : Field, (g.set x 0).get f = g.get f ∨ (g.set x 0).get f = 0 :=
    fun f => grid_get_set_cases g x 0 f
  obtain ⟨h1, h2, h3⟩ := hND
  refine ⟨?_, ?_, ?_⟩
  · intro r c1 c2 hr hc1 hc2 hne hnz heq
    rcases hv ⟨r, c1⟩ with ha | ha
    · rcases hv ⟨r, c2⟩ with hb | hb
      · rw [ha] at hnz heq
        rw [hb] at heq
        exact h1 r c1 c2 hr hc1 hc2 hne hnz heq
      · rw [ha] at hnz heq
        rw [hb] at heq
        exact hnz heq
    · rw [ha] at hnz
      exact hnz rfl
  · intro c r1 r2 hc hr1 hr2 hne hnz heq
    rcases hv ⟨r1, c⟩ with ha | ha
    · rcases hv ⟨r2, c⟩ with hb | hb
      · rw [ha] at hnz heq
        rw [hb] at heq
        exact h2 c r1 r2 hc hr1 hr2 hne hnz heq
      · rw [ha] at hnz heq
        rw [hb] at heq
        exact hnz heq
    · rw [ha] at hnz
      exact hnz rfl
  · intro r1 c1 r2 c2 hr1 hc1 hr2 hc2 hne hpe hnz heq
    rcases hv ⟨r1, c1⟩ with ha | ha
    · rcases hv ⟨r2, c2⟩ with hb | hb
      · rw [ha] at hnz heq
        rw [hb] at heq
        exact h3 r1 c1 r2 c2 hr1 hc1 hr2 hc2 hne hpe hnz heq
      · rw [ha] at hnz heq
        rw [hb] at heq
        exact hnz heq
    · rw [ha] at hnz
      exact hnz rfl

theorem NoDups_set_guess (g : Grid) (hWF : WF9 g) (hND : NoDups g) (x : Field)
    (hxr : x.row < 9) (hxc : x.column < 9) (v : Nat)
    (hvm : v ∈ Sudoku.get_field_guesses ⟨g⟩ x) : NoDups (g.set x v) := by
  obtain ⟨hv1, hv9, hvrow, hvcol, hvparc⟩ := (mem_get_field_guesses ⟨g⟩ x v).1 hvm
  have hval : ∀ f : Field, (g.set x v).get f = if f = x then v else g.get f := by
    intro f
    by_cases h : f = x
    · subst h
      rw [if_pos rfl]
      exact grid_get_set_self9 g f v hWF hxr hxc
    · rw [if_neg h]
      exact grid_get_set_ne g x f v (fun he => h he.symm)
  obtain ⟨h1, h2, h3⟩ := hND
  refine ⟨?_, ?_, ?_⟩
  · intro r c1 c2 hr hc1 hc2 hne hnz heq
    rw [hval, hval] at heq
    rw [hval] at hnz
    by_cases ha : (⟨r, c1⟩ : Field) = x
    · rw [if_pos ha] at heq hnz
      by_cases hb : (⟨r, c2⟩ : Field) = x
      · exact hne (congrArg Field.column (ha.trans hb.symm))
      · rw [if_neg hb] at heq
        have hrx : x.row = r := (congrArg Field.row ha).symm
        refine hvrow ((mem_get_row_iff g hWF x.row hxr v).2 ⟨c2, hc2, ?_⟩)
        rw [hrx]
        exact heq.symm
    · rw [if_neg ha] at heq hnz
      by_cases hb : (⟨r, c2⟩ : Field) = x
      · rw [if_pos hb] at heq
        have hrx : x.row = r := (congrArg Field.row hb).symm
        refine hvrow ((mem_get_row_iff g hWF x.row hxr v).2 ⟨c1, hc1, ?_⟩)
        rw [hrx]
        exact heq
      · rw [if_neg hb] at heq
        exact h1 r c1 c2 hr hc1 hc2 hne hnz heq
  · intro c r1 r2 hc hr1 hr2 hne hnz heq
    rw [hval, hval] at heq
    rw [hval] at hnz
    by_cases ha : (⟨r1, c⟩ : Field) = x
    · rw [if_pos ha] at heq hnz
      by_cases hb : (⟨r2, c⟩ : Field) = x
      · exact hne (congrArg Field.row (ha.trans hb.symm))
      · rw [if_neg hb] at heq
        have hcx : x.column = c := (congrArg Field.column ha).symm
        refine hvcol ((mem_get_col_iff g hWF x.column v).2 ⟨r2, hr2, ?_⟩)
        rw [hcx]
        exact heq.symm
    · rw [if_neg ha] at heq hnz
      by_cases hb : (⟨r2, c⟩ : Field) = x
      · rw [if_pos hb] at heq
        have hcx : x.column = c := (congrArg Field.column hb).symm
        refine hvcol ((mem_get_col_iff g hWF x.column v).2 ⟨r1, hr1, ?_⟩)
        rw [hcx]
        exact heq
      · rw [if_neg hb] at heq
        exact h2 c r1 r2 hc hr1 hr2 hne hnz heq
  · intro r1 c1 r2 c2 hr1 hc1 hr2 hc2 hne hpe hnz heq
    rw [hval, hval] at heq
    rw [hval] at hnz
    by_cases ha : (⟨r1, c1⟩ : Field) = x
    · rw [if_pos ha] at heq hnz
      by_cases hb : (⟨r2, c2⟩ : Field) = x
      · have h12 := ha.trans hb.symm
        exact hne ⟨congrArg Field.row h12, congrArg Field.column h12⟩
      · rw [if_neg hb] at heq
        refine hvparc ((mem_parcel_flatten_iff g _ v).2 ⟨⟨r2, c2⟩, ?_, heq.symm⟩)
        rw [← ha, hpe]
        exact mem_parcel_fields_self ⟨r2, c2⟩ hr2 hc2
    · rw [if_neg ha] at heq hnz
      by_cases hb : (⟨r2, c2⟩ : Field) = x
      · rw [if_pos hb] at heq
        refine hvparc ((mem_parcel_flatten_iff g _ v).2 ⟨⟨r1, c1⟩, ?_, heq⟩)
        rw [← hb, ← hpe]
        exact mem_parcel_fields_self ⟨r1, c1⟩ hr1 hc1
      · rw [if_neg hb] at heq
        exact h3 r1 c1 r2 c2 hr1 hc1 hr2 hc2 hne hpe hnz heq

/-- The value of any solution at a cell is always among that cell's
current guesses, provided every other non-zero cell agrees with the
solution and the cell's own value differs from the solution's. -/
theorem solution_guess_mem (g₀ : Grid) (t : Field → Nat) (hsol : IsSolution g₀ t)
    (g : Grid) (hWF : WF9 g) (x : Field) (hxr : x.row < 9) (hxc : x.column < 9)
    (hagree : ∀ f : Field, f.row < 9 → f.column < 9 → f ≠ x → g.get f ≠ 0 → g.get f = t f)
    (hne : g.get x ≠ t x) :
    t x ∈ Sudoku.get_field_guesses ⟨g⟩ x := by
  obtain ⟨hbounds, _, hrow, hcol, hparc⟩ := hsol
  have hx19 : 1 ≤ t x ∧ t x ≤ 9 := hbounds x.row x.column hxr hxc
  rw [mem_get_field_guesses]
  refine ⟨hx19.1, hx19.2, ?_, ?_, ?_⟩
  · intro hmem
    obtain ⟨c, hc, he⟩ := (mem_get_row_iff g hWF x.row hxr _).1 hmem
    by_cases hcx : c = x.column
    · subst hcx
      exact hne he
    · have hnz : g.get ⟨x.row, c⟩ ≠ 0 := by
        rw [he]
        omega
      have hag := hagree ⟨x.row, c⟩ hxr hc
        (fun hfx => hcx (congrArg Field.column hfx)) hnz
      exact hrow x.row c x.column hxr hc hxc hcx (by rw [← hag, he])
  · intro hmem
    obtain ⟨r, hr, he⟩ := (mem_get_col_iff g hWF x.column _).1 hmem
    by_cases hrx : r = x.row
    · subst hrx
      exact hne he
    · have hnz : g.get ⟨r, x.column⟩ ≠ 0 := by
        rw [he]
        omega
      have hag := hagree ⟨r, x.column⟩ hr hxc
        (fun hfx => hrx (congrArg Field.row hfx)) hnz
      exact hcol x.column r x.row hxc hr hxr hrx (by rw [← hag, he])
  · intro hmem
    obtain ⟨f, hfP, he⟩ := (mem_parcel_flatten_iff g _ _).1 hmem
    have hpi9 := parcel_index_lt9 x hxr hxc
    obtain ⟨hidx, hfr, hfc⟩ := parcel_index_of_mem _ hpi9 f hfP
    by_cases hfx : f = x
    · subst hfx
      exact hne he
    · have hnz : g.get f ≠ 0 := by
        rw [he]
        omega
      have hag := hagree f hfr hfc hfx hnz
      refine hparc f.row f.column x.row x.column hfr hfc hxr hxc
        (fun hp => hfx ?_) hidx (by rw [← hag, he])
      obtain ⟨f1, f2⟩ := f
      obtain ⟨x1, x2⟩ := x
      simp only at hp
      rw [Field.mk.injEq]
      exact hp

/-! ### Lexicographic progress measure for the backtracking loop -/

/-- The value the grid holds at the j-th mutable field (0 out of range). -/
def wvec (g : Grid) (M : List Field) (j : Nat) : Nat :=
  if h : j < M.length then g.get (M.get ⟨j, h⟩) else 0

/-- The value a fixed assignment gives at the j-th mutable field. -/
def twvec (t : Field → Nat) (M : List Field) (j : Nat) : Nat :=
  if h : j < M.length then t (M.get ⟨j, h⟩) else 0

/-- Weighted decimal reading of the first `i` digits of `w`, plus one unit
of the `i`-th place: the strictly increasing loop measure. -/
def Kfun (w : Nat → Nat) (n i : Nat) : Nat :=
  (Finset.range i).sum (fun j => w j * 10 ^ (n - j)) + (w i + 1) * 10 ^ (n - i)

/-- The measure evaluated on a grid state. -/
def Kmeas (g : Grid) (M : List Field) (i : Nat) : Nat :=
  Kfun (wvec g M) M.length i

theorem Kfun_le (w : Nat → Nat) (n : Nat) (hw : ∀ j, w j ≤ 9) :
    ∀ i, i ≤ n → Kfun w n i ≤ 10 ^ (n + 1) := by
  intro i
  induction i with
  | zero =>
    intro _
    unfold Kfun
    rw [Finset.range_zero, Finset.sum_empty, Nat.zero_add, Nat.sub_zero]
    calc (w 0 + 1) * 10 ^ n ≤ 10 * 10 ^ n :=
          Nat.mul_le_mul (by have := hw 0; omega) (Nat.le_refl _)
      _ = 10 ^ (n + 1) := by rw [Nat.pow_succ, Nat.mul_comm]
  | succ i ih =>
    intro hin
    have hi : i ≤ n := Nat.le_of_succ_le hin
    refine Nat.le_trans ?_ (ih hi)
    unfold Kfun
    rw [Finset.sum_range_succ]
    have h10 : 10 ^ (n - i) = 10 * 10 ^ (n - (i + 1)) := by
      have hidx : n - i = (n - (i + 1)) + 1 := by omega
      rw [hidx, Nat.pow_succ, Nat.mul_comm]
    have hstep : (w (i + 1) + 1) * 10 ^ (n - (i + 1)) ≤ 10 ^ (n - i) := by
      rw [h10]
      exact Nat.mul_le_mul (by have := hw (i + 1); omega) (Nat.le_refl _)
    have hexp : (w i + 1) * 10 ^ (n - i) = w i * 10 ^ (n - i) + 10 ^ (n - i) := by
      rw [Nat.add_mul, Nat.one_mul]
    omega

theorem Kfun_advance (w w' : Nat → Nat) (n i v : Nat)
    (hpre : ∀ j, j < i → w' j = w j) (hv : w' i = v) (hwi : w i < v) :
    Kfun w n i + 1 ≤ Kfun w' n (i + 1) := by
  unfold Kfun
  rw [Finset.sum_range_succ]
  have hS : (Finset.range i).sum (fun j => w' j * 10 ^ (n - j))
      = (Finset.range i).sum (fun j => w j * 10 ^ (n - j)) :=
    Finset.sum_congr rfl (fun j hj => by rw [hpre j (Finset.mem_range.1 hj)])
  rw [hS, hv]
  have h1 : (w i + 1) * 10 ^ (n - i) ≤ v * 10 ^ (n - i) :=
    Nat.mul_le_mul (by omega) (Nat.le_refl _)
  have hp : 0 < 10 ^ (n - (i + 1)) := pow_pos (by omega) _
  have h2 : 1 ≤ (w' (i + 1) + 1) * 10 ^ (n - (i + 1)) :=
    Nat.one_le_iff_ne_zero.2
      (Nat.mul_ne_zero (Nat.succ_ne_zero _) (Nat.pos_iff_ne_zero.1 hp))
  omega

theorem Kfun_retreat (w w' : Nat → Nat) (n i : Nat) (hi1 : 1 ≤ i) (hin : i ≤ n)
    (hpre : ∀ j, j < i → w' j = w j) (hwi : ∀ j, w j ≤ 9) :
    Kfun w n i ≤ Kfun w' n (i - 1) := by
  obtain ⟨k, rfl⟩ : ∃ k, i = k + 1 := ⟨i - 1, by omega⟩
  rw [Nat.add_sub_cancel]
  unfold Kfun
  rw [Finset.sum_range_succ]
  have hS : (Finset.range k).sum (fun j => w' j * 10 ^ (n - j))
      = (Finset.range k).sum (fun j => w j * 10 ^ (n - j)) :=
    Finset.sum_congr rfl
      (fun j hj => by rw [hpre j (Nat.lt_succ_of_lt (Finset.mem_range.1 hj))])
  rw [hS, hpre k (Nat.lt_succ_self k)]
  have h10 : 10 ^ (n - k) = 10 * 10 ^ (n - (k + 1)) := by
    have hidx : n - k = (n - (k + 1)) + 1 := by omega
    rw [hidx, Nat.pow_succ, Nat.mul_comm]
  have hstep : (w (k + 1) + 1) * 10 ^ (n - (k + 1)) ≤ 10 ^ (n - k) := by
    rw [h10]
    exact Nat.mul_le_mul (by have := hwi (k + 1); omega) (Nat.le_refl _)
  have hexp : (w k + 1) * 10 ^ (n - k) = w k * 10 ^ (n - k) + 10 ^ (n - k) := by
    rw [Nat.add_mul, Nat.one_mul]
  omega

theorem wvec_le9 (g : Grid) (M : List Field) (hle : ∀ f : Field, g.get f ≤ 9) (j : Nat) :
    wvec g M j ≤ 9 := by
  unfold wvec
  by_cases h : j < M.length
  · rw [dif_pos h]
    exact hle _
  · rw [dif_neg h]
    omega

theorem wvec_set (g : Grid) (hWF : WF9 g) (M : List Field) (hnd : M.Nodup)
    (hMb : ∀ f ∈ M, f.row < 9 ∧ f.column < 9)
    (i : Nat) (hi : i < M.length) (v : Nat) (j : Nat) :
    wvec (g.set (M.get ⟨i, hi⟩) v) M j = if j = i then v else wvec g M j := by
  unfold wvec
  by_cases hj : j < M.length
  · by_cases hij : j = i
    · subst hij
      rw [if_pos rfl, dif_pos hj]
      have hb := hMb (M.get ⟨j, hj⟩) (List.get_mem M j hj)
      exact grid_get_set_self9 g _ v hWF hb.1 hb.2
    · rw [if_neg hij, dif_pos hj, dif_pos hj]
      refine grid_get_set_ne g _ _ v ?_
      intro he
      have hfin : (⟨i, hi⟩ : Fin M.length) = ⟨j, hj⟩ := by
        rw [← List.Nodup.get_inj_iff hnd]
        exact he
      exact hij (congrArg Fin.val hfin).symm
  · have hij : j ≠ i := fun he => hj (he ▸ hi)
    rw [if_neg hij, dif_neg hj, dif_neg hj]

/-! ### Done-state lemmas -/

theorem field_ext (f1 f2 : Field) (hr : f1.row = f2.row) (hc : f1.column = f2.column) :
    f1 = f2 := by
  obtain ⟨a, b⟩ := f1
  obtain ⟨c, d⟩ := f2
  cases hr
  cases hc
  rfl

theorem get_row_getElem (g : Grid) (r i : Nat) (hi : i < (g.get_row r).length) :
    (g.get_row r)[i] = g.get ⟨r, i⟩ :=
  (List.getD_eq_getElem _ 0 hi).symm

theorem get_col_getElem (g : Grid) (c i : Nat) (hi : i < (g.get_col c).length) :
    (g.get_col c)[i] = g.get ⟨i, c⟩ := by
  have hlen : (g.get_col c).length = g.fields.length := by
    unfold Grid.get_col
    rw [List.length_map]
  have hi' : i < g.fields.length := hlen ▸ hi
  show (g.fields.map (fun row => row.getD c 0))[i] = (g.fields.getD i []).getD c 0
  rw [List.getElem_map, List.getD_eq_getElem g.fields [] hi']

theorem get_row_nodup (g : Grid) (hWF : WF9 g) (hND : NoDups g) (r : Nat) (hr : r < 9)
    (hnz : ∀ f : Field, f.row < 9 → f.column < 9 → g.get f ≠ 0) :
    (g.get_row r).Nodup := by
  have hlen : (g.get_row r).length = 9 := WF9_row_len g hWF r hr
  show List.Pairwise (· ≠ ·) (g.get_row r)
  rw [List.pairwise_iff_getElem]
  intro i j hi hj hij
  rw [get_row_getElem g r i hi, get_row_getElem g r j hj]
  exact hND.1 r i j hr (by omega) (by omega) (by omega)
    (hnz ⟨r, i⟩ hr (by show i < 9; omega))

theorem get_col_nodup (g : Grid) (hWF : WF9 g) (hND : NoDups g) (c : Nat) (hc : c < 9)
    (hnz : ∀ f : Field, f.row < 9 → f.column < 9 → g.get f ≠ 0) :
    (g.get_col c).Nodup := by
  have hlen : (g.get_col c).length = 9 := by
    unfold Grid.get_col
    rw [List.length_map, hWF.1]
  show List.Pairwise (· ≠ ·) (g.get_col c)
  rw [List.pairwise_iff_getElem]
  intro i j hi hj hij
  rw [get_col_getElem g c i hi, get_col_getElem g c j hj]
  exact hND.2.1 c i j hc (by omega) (by omega) (by omega)
    (hnz ⟨i, c⟩ (by show i < 9; omega) hc)

theorem parcel_flatten_nodup (g : Grid) (hND : NoDups g) (pi : Nat) (hpi : pi < 9)
    (hnz : ∀ f : Field, f.row < 9 → f.column < 9 → g.get f ≠ 0) :
    ((g.get_parcel pi).flatten).Nodup := by
  rw [get_parcel_flatten]
  refine List.Nodup.map_on ?_ (parcel_fields_nodup pi)
  intro f1 hf1 f2 hf2 heq
  by_contra hne
  obtain ⟨hi1, hr1, hc1⟩ := parcel_index_of_mem pi hpi f1 hf1
  obtain ⟨hi2, hr2, hc2⟩ := parcel_index_of_mem pi hpi f2 hf2
  refine hND.2.2 f1.row f1.column f2.row f2.column hr1 hc1 hr2 hc2 ?_ ?_ ?_ heq
  · rintro ⟨hpr, hpc⟩
    exact hne (field_ext f1 f2 hpr hpc)
  · rw [hi1, hi2]
  · exact hnz f1 hr1 hc1

theorem perm_digits_of (l : List Nat) (hlen : l.length = 9) (hnd : l.Nodup)
    (hmem : ∀ x ∈ l, 1 ≤ x ∧ x ≤ 9) : l.Perm [1, 2, 3, 4, 5, 6, 7, 8, 9] := by
  have hsub : l ⊆ [1, 2, 3, 4, 5, 6, 7, 8, 9] := by
    intro x hx
    have := hmem x hx
    simp only [List.mem_cons, List.not_mem_nil, or_false]
    omega
  have hsp := List.subperm_of_subset hnd hsub
  refine hsp.perm_of_length_le ?_
  rw [hlen]
  decide

theorem all_nonzero_of_done (g₀ g : Grid) (hmut : g.mutable_fields = g₀.mutable_fields)
    (hunch : ∀ f : Field, f ∉ g₀.mutable_fields → g.get f = g₀.get f)
    (hM0 : ∀ f : Field, f.row < 9 → f.column < 9 → g₀.get f = 0 → f ∈ g₀.mutable_fields)
    (hdone : Sudoku.is_done ⟨g⟩ = true) :
    ∀ f : Field, f.row < 9 → f.column < 9 → g.get f ≠ 0 := by
  unfold Sudoku.is_done at hdone
  rw [Bool.and_eq_true, List.all_eq_true] at hdone
  intro f hr hc
  by_cases hf : f ∈ g₀.mutable_fields
  · have := hdone.1 f (by show f ∈ g.mutable_fields; rw [hmut]; exact hf)
    exact of_decide_eq_true this
  · intro h0
    exact hf (hM0 f hr hc (by rw [← hunch f hf]; exact h0))

theorem is_done_of_invariants (g : Grid) (hND : NoDups g)
    (hnz : ∀ f : Field, f.row < 9 → f.column < 9 → g.get f ≠ 0)
    (hMb : ∀ f ∈ g.mutable_fields, f.row < 9 ∧ f.column < 9) :
    Sudoku.is_done ⟨g⟩ = true := by
  unfold Sudoku.is_done
  rw [Bool.and_eq_true]
  refine ⟨?_, ?_⟩
  · rw [List.all_eq_true]
    intro f hf
    have hb := hMb f hf
    exact decide_eq_true (hnz f hb.1 hb.2)
  · unfold Sudoku.is_valid
    rw [List.all_eq_true]
    intro pi hpi
    have hpi9 : pi < 9 := List.mem_range.1 hpi
    show Sudoku.is_valid_parcel ⟨g⟩ pi = true
    unfold Sudoku.is_valid_parcel
    rw [has_only_unique_digits_iff]
    exact (parcel_flatten_nodup g hND pi hpi9 hnz).filter _

theorem done_perms (g : Grid) (hWF : WF9 g) (hND : NoDups g)
    (hnz : ∀ f : Field, f.row < 9 → f.column < 9 → g.get f ≠ 0)
    (hle : ∀ f : Field, g.get f ≤ 9) :
    (∀ r, r < 9 → (g.get_row r).Perm [1, 2, 3, 4, 5, 6, 7, 8, 9])
    ∧ (∀ c, c < 9 → (g.get_col c).Perm [1, 2, 3, 4, 5, 6, 7, 8, 9])
    ∧ (∀ pi, pi < 9 → ((g.get_parcel pi).flatten).Perm [1, 2, 3, 4, 5, 6, 7, 8, 9]) := by
  refine ⟨?_, ?_, ?_⟩
  · intro r hr
    refine perm_digits_of _ (WF9_row_len g hWF r hr) (get_row_nodup g hWF hND r hr hnz) ?_
    intro x hx
    obtain ⟨c, hc, he⟩ := (mem_get_row_iff g hWF r hr x).1 hx
    have h1 := hnz ⟨r, c⟩ hr hc
    have h2 := hle (⟨r, c⟩ : Field)
    omega
  · intro c hc
    have hlen : (g.get_col c).length = 9 := by
      unfold Grid.get_col
      rw [List.length_map, hWF.1]
    refine perm_digits_of _ hlen (get_col_nodup g hWF hND c hc hnz) ?_
    intro x hx
    obtain ⟨r, hr, he⟩ := (mem_get_col_iff g hWF c x).1 hx
    have h1 := hnz ⟨r, c⟩ hr hc
    have h2 := hle (⟨r, c⟩ : Field)
    omega
  · intro pi hpi
    have hlen : ((g.get_parcel pi).flatten).length = 9 := by
      rw [get_parcel_flatten, List.length_map, get_parcel_fields_eq]
      rfl
    refine perm_digits_of _ hlen (parcel_flatten_nodup g hND pi hpi hnz) ?_
    intro x hx
    obtain ⟨f, hfP, he⟩ := (mem_parcel_flatten_iff g pi x).1 hx
    obtain ⟨_, hfr, hfc⟩ := parcel_index_of_mem pi hpi f hfP
    have h1 := hnz f hfr hfc
    have h2 := hle f
    omega

/-! ### One-iteration equations of the backtracking loop -/

theorem btLoop_step_done (fuel : Nat) (s : Sudoku) (i tries mt : Nat)
    (hdone : s.is_done = true) :
    btLoop (fuel + 1) s i tries mt = BTResult.ok s tries := by
  rw [btLoop, if_pos hdone]

theorem btLoop_step_retreat (fuel : Nat) (s : Sudoku) (i tries mt : Nat) (x : Field)
    (hdone : ¬(s.is_done = true))
    (hget : s.grid.mutable_fields.get? i = some x)
    (hnext : (s.get_field_guesses x).filter (fun v => s.grid.get x < v) = [])
    (hi0 : ¬(i = 0)) (hmt : ¬(mt ≤ tries + 1)) :
    btLoop (fuel + 1) s i tries mt
      = btLoop fuel ⟨s.grid.set x 0⟩ (i - 1) (tries + 1) mt := by
  rw [btLoop, if_neg hdone, hget]
  dsimp only
  rw [hnext]
  dsimp only
  rw [if_neg hi0, if_neg hmt]

theorem btLoop_step_advance (fuel : Nat) (s : Sudoku) (i tries mt : Nat) (x : Field)
    (v : Nat) (rest : List Nat)
    (hdone : ¬(s.is_done = true))
    (hget : s.grid.mutable_fields.get? i = some x)
    (hnext : (s.get_field_guesses x).filter (fun w => s.grid.get x < w) = v :: rest)
    (hmt : ¬(mt ≤ tries + 1)) :
    btLoop (fuel + 1) s i tries mt
      = btLoop fuel ⟨s.grid.set x v⟩ (i + 1) (tries + 1) mt := by
  rw [btLoop, if_neg hdone, hget]
  dsimp only
  rw [hnext]
  dsimp only
  rw [if_neg hmt]

/-! ### The backtracking loop invariant and main induction -/

/-- State invariant of the backtracking loop at mutable-field index `i`:
well-formed grid, untouched cache and fixed cells, the first `i` mutable
fields filled, the ones past `i` still empty, no duplicates anywhere, all
values at most 9, index in range. -/
def BTInv (g₀ g : Grid) (i : Nat) : Prop :=
  WF9 g
  ∧ g.mutable_fields = g₀.mutable_fields
  ∧ (∀ f : Field, f ∉ g₀.mutable_fields → g.get f = g₀.get f)
  ∧ (∀ j, j < i → 1 ≤ wvec g g₀.mutable_fields j)
  ∧ (∀ j, i < j → wvec g g₀.mutable_fields j = 0)
  ∧ NoDups g
  ∧ (∀ f : Field, g.get f ≤ 9)
  ∧ i ≤ g₀.mutable_fields.length

/-- Either the state is done, or some index `j ≤ i` agrees with the target
solution strictly below `j` and is strictly below it at `j`: the solution
is still lexicographically ahead of the current partial assignment. -/
def LexInv (g₀ : Grid) (t : Field → Nat) (g : Grid) (i : Nat) : Prop :=
  Sudoku.is_done ⟨g⟩ = true
  ∨ ∃ j, j ≤ i
      ∧ (∀ k, k < j → wvec g g₀.mutable_fields k = twvec t g₀.mutable_fields k)
      ∧ wvec g g₀.mutable_fields j < twvec t g₀.mutable_fields j

/-- What holds of the grid the loop returns. -/
def BTFinal (g₀ gf : Grid) : Prop :=
  Sudoku.is_done ⟨gf⟩ = true
  ∧ WF9 gf
  ∧ NoDups gf
  ∧ gf.mutable_fields = g₀.mutable_fields
  ∧ (∀ f : Field, f ∉ g₀.mutable_fields → gf.get f = g₀.get f)
  ∧ (∀ f : Field, gf.get f ≤ 9)

theorem btLoop_completes (g₀ : Grid) (t : Field → Nat)
    (hnd : g₀.mutable_fields.Nodup)
    (hMb : ∀ f ∈ g₀.mutable_fields, f.row < 9 ∧ f.column < 9)
    (hM0 : ∀ f : Field, f.row < 9 → f.column < 9 → g₀.get f = 0 → f ∈ g₀.mutable_fields)
    (hsol : IsSolution g₀ t) (a : Nat) :
    ∀ i g, BTInv g₀ g i → LexInv g₀ t g i →
      10 ^ (g₀.mutable_fields.length + 1) + 1 - Kmeas g g₀.mutable_fields i ≤ a →
      ∃ B, 1 ≤ B ∧ ∀ tries mt fuel, tries + B ≤ mt → B ≤ fuel →
        ∃ gf tf, btLoop fuel ⟨g⟩ i tries mt = BTResult.ok ⟨gf⟩ tf ∧ BTFinal g₀ gf := by
  induction a using Nat.strong_induction_on with
  | _ a ihA =>
  intro i
  induction i using Nat.strong_induction_on with
  | _ i ihI =>
  intro g hInv hLex hKa
  obtain ⟨hWF, hmut, hunch, hpre, hsuf, hND, hle, hin⟩ := hInv
  by_cases hdone : Sudoku.is_done ⟨g⟩ = true
  · refine ⟨1, Nat.le_refl 1, ?_⟩
    intro tries mt fuel hBmt hBfuel
    obtain ⟨fu, rfl⟩ : ∃ fu, fuel = fu + 1 := ⟨fuel - 1, by omega⟩
    exact ⟨g, tries, btLoop_step_done fu ⟨g⟩ i tries mt hdone,
      hdone, hWF, hND, hmut, hunch, hle⟩
  · have hi : i < g₀.mutable_fields.length := by
      rcases Nat.lt_or_ge i g₀.mutable_fields.length with h | h
      · exact h
      · exfalso
        refine hdone (is_done_of_invariants g hND ?_ ?_)
        · intro f hr hc
          by_cases hf : f ∈ g₀.mutable_fields
          · obtain ⟨⟨j, hj⟩, rfl⟩ := List.mem_iff_get.1 hf
            have h1 := hpre j (by omega)
            unfold wvec at h1
            rw [dif_pos hj] at h1
            omega
          · intro h0
            exact hf (hM0 f hr hc (by rw [← hunch f hf]; exact h0))
        · intro f hf
          rw [hmut] at hf
          exact hMb f hf
    have hget : (⟨g⟩ : Sudoku).grid.mutable_fields.get? i
        = some (g₀.mutable_fields.get ⟨i, hi⟩) := by
      show g.mutable_fields.get? i = _
      rw [hmut]
      exact List.get?_eq_get hi
    obtain ⟨hxr, hxc⟩ := hMb (g₀.mutable_fields.get ⟨i, hi⟩)
      (List.get_mem g₀.mutable_fields i hi)
    have hwi_eq : wvec g g₀.mutable_fields i = g.get (g₀.mutable_fields.get ⟨i, hi⟩) := by
      unfold wvec
      rw [dif_pos hi]
    have htwi_eq : twvec t g₀.mutable_fields i = t (g₀.mutable_fields.get ⟨i, hi⟩) := by
      unfold twvec
      rw [dif_pos hi]
    obtain ⟨j, hji, hagreej, hjlt⟩ := Or.resolve_left hLex hdone
    have hkey : j = i → (t (g₀.mutable_fields.get ⟨i, hi⟩))
        ∈ (Sudoku.get_field_guesses ⟨g⟩ (g₀.mutable_fields.get ⟨i, hi⟩)).filter
          (fun w => g.get (g₀.mutable_fields.get ⟨i, hi⟩) < w) := by
      intro hje
      subst hje
      have hgt : g.get (g₀.mutable_fields.get ⟨j, hi⟩)
          < t (g₀.mutable_fields.get ⟨j, hi⟩) := by
        rw [← hwi_eq, ← htwi_eq]
        exact hjlt
      have hagreeX : ∀ f : Field, f.row < 9 → f.column < 9 →
          f ≠ g₀.mutable_fields.get ⟨j, hi⟩ → g.get f ≠ 0 → g.get f = t f := by
        intro f hr hc hfx hnz0
        by_cases hf : f ∈ g₀.mutable_fields
        · obtain ⟨⟨k, hk⟩, hkeq⟩ := List.mem_iff_get.1 hf
          have hki : k ≠ j := by
            intro he
            refine hfx ?_
            rw [← hkeq]
            exact congrArg g₀.mutable_fields.get (Fin.ext he)
          rcases Nat.lt_or_ge k j with hkj | hkj
          · have h1 := hagreej k hkj
            unfold wvec twvec at h1
            rw [dif_pos hk, dif_pos hk] at h1
            rw [hkeq] at h1
            exact h1
          · have h0 := hsuf k (by omega)
            unfold wvec at h0
            rw [dif_pos hk, hkeq] at h0
            exact absurd h0 hnz0
        · have h1 := hunch f hf
          rw [h1]
          exact (hsol.2.1 f.row f.column hr hc (by rw [← h1]; exact hnz0)).symm
      have htx := solution_guess_mem g₀ t hsol g hWF (g₀.mutable_fields.get ⟨j, hi⟩)
        hxr hxc hagreeX (Nat.ne_of_lt hgt)
      exact List.mem_filter.2 ⟨htx, decide_eq_true hgt⟩
    cases hnext : (Sudoku.get_field_guesses ⟨g⟩ (g₀.mutable_fields.get ⟨i, hi⟩)).filter
        (fun w => g.get (g₀.mutable_fields.get ⟨i, hi⟩) < w) with
    | nil =>
      have hji' : j < i := by
        rcases Nat.lt_or_ge j i with h | h
        · exact h
        · have hje : j = i := Nat.le_antisymm hji h
          have hmem := hkey hje
          rw [hnext] at hmem
          exact absurd hmem (List.not_mem_nil _)
      have hi0 : ¬(i = 0) := by omega
      have hwv := wvec_set g hWF g₀.mutable_fields hnd hMb i hi 0
      have hInv' : BTInv g₀ (g.set (g₀.mutable_fields.get ⟨i, hi⟩) 0) (i - 1) := by
        refine ⟨WF9_set g _ 0 hWF, (grid_set_mutable g _ 0).trans hmut, ?_, ?_, ?_,
          NoDups_set_zero g _ hND, ?_, by omega⟩
        · intro f hf
          refine (grid_get_set_ne g _ f 0 ?_).trans (hunch f hf)
          intro he
          exact hf (he ▸ List.get_mem g₀.mutable_fields i hi)
        · intro k hk
          rw [hwv k, if_neg (by omega)]
          exact hpre k (by omega)
        · intro k hk
          rw [hwv k]
          by_cases hki : k = i
          · rw [if_pos hki]
          · rw [if_neg hki]
            exact hsuf k (by omega)
        · intro f
          rcases grid_get_set_cases g _ 0 f with h | h
          · rw [h]
            exact hle f
          · rw [h]
            omega
      have hLex' : LexInv g₀ t (g.set (g₀.mutable_fields.get ⟨i, hi⟩) 0) (i - 1) := by
        refine Or.inr ⟨j, by omega, ?_, ?_⟩
        · intro k hk
          rw [hwv k, if_neg (by omega)]
          exact hagreej k hk
        · rw [hwv j, if_neg (by omega)]
          exact hjlt
      have hK' : 10 ^ (g₀.mutable_fields.length + 1) + 1
          - Kmeas (g.set (g₀.mutable_fields.get ⟨i, hi⟩) 0) g₀.mutable_fields (i - 1) ≤ a := by
        have hret := Kfun_retreat (wvec g g₀.mutable_fields)
          (wvec (g.set (g₀.mutable_fields.get ⟨i, hi⟩) 0) g₀.mutable_fields)
          g₀.mutable_fields.length i (by omega) hin
          (fun k hk => by rw [hwv k, if_neg (by omega)])
          (wvec_le9 g _ hle)
        unfold Kmeas at hKa ⊢
        omega
      obtain ⟨B', hB1', hrun'⟩ := ihI (i - 1) (by omega) _ hInv' hLex' hK'
      refine ⟨B' + 1, by omega, ?_⟩
      intro tries mt fuel hBmt hBfuel
      obtain ⟨fu, rfl⟩ : ∃ fu, fuel = fu + 1 := ⟨fuel - 1, by omega⟩
      obtain ⟨gf, tf, heq, hfin⟩ := hrun' (tries + 1) mt fu (by omega) (by omega)
      refine ⟨gf, tf, ?_, hfin⟩
      rw [btLoop_step_retreat fu ⟨g⟩ i tries mt (g₀.mutable_fields.get ⟨i, hi⟩)
        hdone hget hnext hi0 (by omega)]
      exact heq
    | cons v rest =>
      have hvfilter : v ∈ (Sudoku.get_field_guesses ⟨g⟩
          (g₀.mutable_fields.get ⟨i, hi⟩)).filter
          (fun w => g.get (g₀.mutable_fields.get ⟨i, hi⟩) < w) := by
        rw [hnext]
        exact List.mem_cons_self v rest
      obtain ⟨hvg, hvlt'⟩ := List.mem_filter.1 hvfilter
      have hvlt : g.get (g₀.mutable_fields.get ⟨i, hi⟩) < v := of_decide_eq_true hvlt'
      obtain ⟨hv1, hv9, _, _, _⟩ := (mem_get_field_guesses ⟨g⟩ _ v).1 hvg
      have hwv := wvec_set g hWF g₀.mutable_fields hnd hMb i hi v
      have hInv' : BTInv g₀ (g.set (g₀.mutable_fields.get ⟨i, hi⟩) v) (i + 1) := by
        refine ⟨WF9_set g _ v hWF, (grid_set_mutable g _ v).trans hmut, ?_, ?_, ?_,
          NoDups_set_guess g hWF hND _ hxr hxc v hvg, ?_, by omega⟩
        · intro f hf
          refine (grid_get_set_ne g _ f v ?_).trans (hunch f hf)
          intro he
          exact hf (he ▸ List.get_mem g₀.mutable_fields i hi)
        · intro k hk
          rw [hwv k]
          by_cases hki : k = i
          · rw [if_pos hki]
            omega
          · rw [if_neg hki]
            exact hpre k (by omega)
        · intro k hk
          rw [hwv k, if_neg (by omega)]
          exact hsuf k (by omega)
        · intro f
          rcases grid_get_set_cases g _ v f with h | h
          · rw [h]
            exact hle f
          · rw [h]
            omega
      have hLex' : LexInv g₀ t (g.set (g₀.mutable_fields.get ⟨i, hi⟩) v) (i + 1) := by
        rcases Nat.lt_or_ge j i with hji' | hji'
        · refine Or.inr ⟨j, by omega, ?_, ?_⟩
          · intro k hk
            rw [hwv k, if_neg (by omega)]
            exact hagreej k hk
          · rw [hwv j, if_neg (by omega)]
            exact hjlt
        · have hje : j = i := Nat.le_antisymm hji hji'
          have htxmem := hkey hje
          have hsorted : List.Sorted (fun x y => x < y) (v :: rest) := by
            rw [← hnext]
            exact List.Pairwise.filter _ (get_field_guesses_sorted ⟨g⟩ _)
          have hvle : v ≤ t (g₀.mutable_fields.get ⟨i, hi⟩) := by
            refine sorted_head_le v rest _ hsorted ?_
            rw [← hnext]
            exact htxmem
          rcases Nat.lt_or_ge v (t (g₀.mutable_fields.get ⟨i, hi⟩)) with hvt | hvt
          · refine Or.inr ⟨i, by omega, ?_, ?_⟩
            · intro k hk
              rw [hwv k, if_neg (by omega)]
              exact hagreej k (by omega)
            · rw [hwv i, if_pos rfl, htwi_eq]
              exact hvt
          · have hvt' : v = t (g₀.mutable_fields.get ⟨i, hi⟩) := Nat.le_antisymm hvle hvt
            rcases Nat.lt_or_ge (i + 1) g₀.mutable_fields.length with hin' | hin'
            · refine Or.inr ⟨i + 1, Nat.le_refl _, ?_, ?_⟩
              · intro k hk
                rw [hwv k]
                by_cases hki : k = i
                · subst hki
                  rw [if_pos rfl, htwi_eq]
                  exact hvt'
                · rw [if_neg hki]
                  exact hagreej k (by omega)
              · rw [hwv (i + 1), if_neg (by omega), hsuf (i + 1) (by omega)]
                unfold twvec
                rw [dif_pos hin']
                have hb := hMb _ (List.get_mem g₀.mutable_fields (i + 1) hin')
                have h1 : 1 ≤ t (g₀.mutable_fields.get ⟨i + 1, hin'⟩)
                    ∧ t (g₀.mutable_fields.get ⟨i + 1, hin'⟩) ≤ 9 :=
                  hsol.1 _ _ hb.1 hb.2
                omega
            · refine Or.inl (is_done_of_invariants _
                (NoDups_set_guess g hWF hND _ hxr hxc v hvg) ?_ ?_)
              · intro f hr hc
                by_cases hf : f ∈ g₀.mutable_fields
                · obtain ⟨⟨k, hk⟩, rfl⟩ := List.mem_iff_get.1 hf
                  have hval := hwv k
                  unfold wvec at hval
                  rw [dif_pos hk] at hval
                  by_cases hki : k = i
                  · rw [if_pos hki] at hval
                    rw [hval]
                    omega
                  · rw [if_neg hki, dif_pos hk] at hval
                    have h1 := hpre k (by omega)
                    unfold wvec at h1
                    rw [dif_pos hk] at h1
                    omega
                · intro h0
                  have hunch' : (g.set (g₀.mutable_fields.get ⟨i, hi⟩) v).get f
                      = g₀.get f := by
                    refine (grid_get_set_ne g _ f v ?_).trans (hunch f hf)
                    intro he
                    exact hf (he ▸ List.get_mem g₀.mutable_fields i hi)
                  exact hf (hM0 f hr hc (by rw [← hunch']; exact h0))
              · intro f hf
                rw [grid_set_mutable, hmut] at hf
                exact hMb f hf
      have hKadv := Kfun_advance (wvec g g₀.mutable_fields)
        (wvec (g.set (g₀.mutable_fields.get ⟨i, hi⟩) v) g₀.mutable_fields)
        g₀.mutable_fields.length i v
        (fun k hk => by rw [hwv k, if_neg (by omega)])
        (by rw [hwv i, if_pos rfl])
        (by rw [hwi_eq]; exact hvlt)
      have hKle := Kfun_le (wvec g g₀.mutable_fields) g₀.mutable_fields.length
        (wvec_le9 _ _ hle) i hin
      have ha' : 10 ^ (g₀.mutable_fields.length + 1) + 1
          - Kmeas (g.set (g₀.mutable_fields.get ⟨i, hi⟩) v) g₀.mutable_fields (i + 1)
          < a := by
        unfold Kmeas at hKa ⊢
        omega
      obtain ⟨B', hB1', hrun'⟩ := ihA _ ha' (i + 1) _ hInv' hLex' (Nat.le_refl _)
      refine ⟨B' + 1, by omega, ?_⟩
      intro tries mt fuel hBmt hBfuel
      obtain ⟨fu, rfl⟩ : ∃ fu, fuel = fu + 1 := ⟨fuel - 1, by omega⟩
      obtain ⟨gf, tf, heq, hfin⟩ := hrun' (tries + 1) mt fu (by omega) (by omega)
      refine ⟨gf, tf, ?_, hfin⟩
      rw [btLoop_step_advance fu ⟨g⟩ i tries mt (g₀.mutable_fields.get ⟨i, hi⟩) v rest
        hdone hget hnext (by omega)]
      exact heq

/-! ### C1: full correctness of the backtracking solver -/

theorem grid_get_le_of_all (cells : List (List Nat))
    (h : ∀ row ∈ cells, ∀ v ∈ row, v ≤ 9) :
    ∀ f : Field, (Grid.new cells).get f ≤ 9 := by
  intro f
  show (cells.getD f.row []).getD f.column 0 ≤ 9
  by_cases hr : f.row < cells.length
  · have hrow := getD_mem cells f.row hr
    by_cases hc : f.column < (cells.getD f.row []).length
    · rw [List.getD_eq_getElem _ _ hc]
      exact h _ hrow _ (List.getElem_mem hc)
    · rw [List.getD_eq_getElem?_getD, List.getElem?_eq_none (Nat.le_of_not_lt hc)]
      show (0 : Nat) ≤ 9
      omega
  · rw [getD_len_le cells f.row (Nat.le_of_not_lt hr)]
    show (0 : Nat) ≤ 9
    omega

/-- Executable check equivalent to `NoDups` on the 81 in-range cells. -/
def noDupsCheck (g : Grid) : Bool :=
  ((List.range 9).all fun r =>
    (List.range 9).all fun c1 =>
      (List.range 9).all fun c2 =>
        (c1 == c2) || (g.get ⟨r, c1⟩ == 0) || !(g.get ⟨r, c1⟩ == g.get ⟨r, c2⟩))
  && ((List.range 9).all fun c =>
    (List.range 9).all fun r1 =>
      (List.range 9).all fun r2 =>
        (r1 == r2) || (g.get ⟨r1, c⟩ == 0) || !(g.get ⟨r1, c⟩ == g.get ⟨r2, c⟩))
  && ((List.range 9).all fun r1 =>
    (List.range 9).all fun c1 =>
      (List.range 9).all fun r2 =>
        (List.range 9).all fun c2 =>
          ((r1 == r2) && (c1 == c2))
          || !(Grid.get_parcel_index ⟨r1, c1⟩ == Grid.get_parcel_index ⟨r2, c2⟩)
          || (g.get ⟨r1, c1⟩ == 0)
          || !(g.get ⟨r1, c1⟩ == g.get ⟨r2, c2⟩))

theorem noDupsCheck_sound (g : Grid) (h : noDupsCheck g = true) : NoDups g := by
  unfold noDupsCheck at h
  rw [Bool.and_eq_true, Bool.and_eq_true] at h
  obtain ⟨⟨h1, h2⟩, h3⟩ := h
  refine ⟨?_, ?_, ?_⟩
  · intro r c1 c2 hr hc1 hc2 hne hnz heq
    have ha := List.all_eq_true.1 h1 r (List.mem_range.2 hr)
    have hb := List.all_eq_true.1 ha c1 (List.mem_range.2 hc1)
    have hc := List.all_eq_true.1 hb c2 (List.mem_range.2 hc2)
    simp only [Bool.or_eq_true, beq_iff_eq, Bool.not_eq_true',
      beq_eq_false_iff_ne] at hc
    rcases hc with (h | h) | h
    · exact hne h
    · exact hnz h
    · exact h heq
  · intro c r1 r2 hc hr1 hr2 hne hnz heq
    have ha := List.all_eq_true.1 h2 c (List.mem_range.2 hc)
    have hb := List.all_eq_true.1 ha r1 (List.mem_range.2 hr1)
    have hd := List.all_eq_true.1 hb r2 (List.mem_range.2 hr2)
    simp only [Bool.or_eq_true, beq_iff_eq, Bool.not_eq_true',
      beq_eq_false_iff_ne] at hd
    rcases hd with (h | h) | h
    · exact hne h
    · exact hnz h
    · exact h heq
  · intro r1 c1 r2 c2 hr1 hc1 hr2 hc2 hne hpe hnz heq
    have ha := List.all_eq_true.1 h3 r1 (List.mem_range.2 hr1)
    have hb := List.all_eq_true.1 ha c1 (List.mem_range.2 hc1)
    have hd := List.all_eq_true.1 hb r2 (List.mem_range.2 hr2)
    have he := List.all_eq_true.1 hd c2 (List.mem_range.2 hc2)
    simp only [Bool.or_eq_true, Bool.and_eq_true, beq_iff_eq, Bool.not_eq_true',
      beq_eq_false_iff_ne] at he
    rcases he with ((h | h) | h) | h
    · exact hne h
    · exact h hpe
    · exact hnz h
    · exact h heq

/-- Executable check that the grid `gs` is a solution of the puzzle `g₀`. -/
def isSolutionCheck (g₀ gs : Grid) : Bool :=
  ((List.range 9).all fun r =>
    (List.range 9).all fun c =>
      (1 ≤ gs.get ⟨r, c⟩ && gs.get ⟨r, c⟩ ≤ 9)
      && (g₀.get ⟨r, c⟩ == 0 || gs.get ⟨r, c⟩ == g₀.get ⟨r, c⟩))
  && noDupsCheck gs

theorem isSolutionCheck_sound (g₀ gs : Grid) (h : isSolutionCheck g₀ gs = true) :
    IsSolution g₀ (fun f => gs.get f) := by
  unfold isSolutionCheck at h
  rw [Bool.and_eq_true] at h
  obtain ⟨h1, h2⟩ := h
  have hcell : ∀ r c, r < 9 → c < 9 →
      (1 ≤ gs.get ⟨r, c⟩ ∧ gs.get ⟨r, c⟩ ≤ 9)
      ∧ (g₀.get ⟨r, c⟩ = 0 ∨ gs.get ⟨r, c⟩ = g₀.get ⟨r, c⟩) := by
    intro r c hr hc
    have ha := List.all_eq_true.1 h1 r (List.mem_range.2 hr)
    have hb := List.all_eq_true.1 ha c (List.mem_range.2 hc)
    simp only [Bool.and_eq_true, Bool.or_eq_true, beq_iff_eq,
      decide_eq_true_eq] at hb
    exact hb
  obtain ⟨hn1, hn2, hn3⟩ := noDupsCheck_sound gs h2
  refine ⟨?_, ?_, ?_, ?_, ?_⟩
  · intro r c hr hc
    exact (hcell r c hr hc).1
  · intro r c hr hc h0
    rcases (hcell r c hr hc).2 with h | h
    · exact absurd h h0
    · exact h
  · intro r c1 c2 hr hc1 hc2 hne
    refine hn1 r c1 c2 hr hc1 hc2 hne ?_
    have := (hcell r c1 hr hc1).1
    omega
  · intro c r1 r2 hc hr1 hr2 hne
    refine hn2 c r1 r2 hc hr1 hr2 hne ?_
    have := (hcell r1 c hr1 hc).1
    omega
  · intro r1 c1 r2 c2 hr1 hc1 hr2 hc2 hne hpe
    refine hn3 r1 c1 r2 c2 hr1 hc1 hr2 hc2 hne hpe ?_
    have := (hcell r1 c1 hr1 hc1).1
    omega

/-- C1: for every well-formed 9x9 puzzle whose pre-filled digits are at
most 9 and conflict-free and that has a solution (in particular every
valid puzzle with a unique solution), `Backtracing::solve` with any
sufficiently large `max_tries` returns normally with a done grid in which
every row, every column and every parcel is a permutation of the digits
1-9 and every originally-filled (non-mutable) cell still holds its
original value. -/
theorem c1_backtracking_correct (cells : List (List Nat)) (t : Field → Nat)
    (hWF : WF9 (Grid.new cells))
    (hle : ∀ f : Field, (Grid.new cells).get f ≤ 9)
    (hND : NoDups (Grid.new cells))
    (hsol : IsSolution (Grid.new cells) t) :
    ∃ B, 1 ≤ B ∧ ∀ max_tries, B ≤ max_tries →
      ∃ gf tries,
        Backtracing.solve ⟨Grid.new cells⟩ max_tries = BTResult.ok ⟨gf⟩ tries
        ∧ Sudoku.is_done ⟨gf⟩ = true
        ∧ (∀ r, r < 9 → (gf.get_row r).Perm [1, 2, 3, 4, 5, 6, 7, 8, 9])
        ∧ (∀ c, c < 9 → (gf.get_col c).Perm [1, 2, 3, 4, 5, 6, 7, 8, 9])
        ∧ (∀ pi, pi < 9 → ((gf.get_parcel pi).flatten).Perm [1, 2, 3, 4, 5, 6, 7, 8, 9])
        ∧ (∀ f : Field, f ∉ (Grid.new cells).mutable_fields
            → gf.get f = (Grid.new cells).get f) := by
  have hnd := getMutableFields_nodup cells
  have hMb : ∀ f ∈ (Grid.new cells).mutable_fields, f.row < 9 ∧ f.column < 9 := by
    intro f hf
    have h := (mem_getMutableFields cells f).1 hf
    exact ⟨h.1, h.2.1⟩
  have hM0 : ∀ f : Field, f.row < 9 → f.column < 9 → (Grid.new cells).get f = 0
      → f ∈ (Grid.new cells).mutable_fields := by
    intro f hr hc h0
    exact (mem_getMutableFields cells f).2 ⟨hr, hc, h0⟩
  have hmz : ∀ j, 0 < j → wvec (Grid.new cells) (Grid.new cells).mutable_fields j = 0 := by
    intro j _
    unfold wvec
    by_cases hj : j < (Grid.new cells).mutable_fields.length
    · rw [dif_pos hj]
      exact new_mutable_zero cells _ (List.get_mem _ j hj)
    · rw [dif_neg hj]
  have hInv0 : BTInv (Grid.new cells) (Grid.new cells) 0 :=
    ⟨hWF, rfl, fun _ _ => rfl, fun j hj => absurd hj (Nat.not_lt_zero j), hmz, hND, hle,
      Nat.zero_le _⟩
  have hLex0 : LexInv (Grid.new cells) t (Grid.new cells) 0 := by
    rcases Nat.eq_zero_or_pos (Grid.new cells).mutable_fields.length with hn | hn
    · refine Or.inl (is_done_of_invariants _ hND ?_ hMb)
      intro f hr hc h0
      have hf := hM0 f hr hc h0
      have hnil : (Grid.new cells).mutable_fields = [] := List.length_eq_zero.1 hn
      rw [hnil] at hf
      exact absurd hf (List.not_mem_nil f)
    · refine Or.inr ⟨0, Nat.le_refl 0, fun k hk => absurd hk (Nat.not_lt_zero k), ?_⟩
      have h0 : wvec (Grid.new cells) (Grid.new cells).mutable_fields 0 = 0 := by
        unfold wvec
        rw [dif_pos hn]
        exact new_mutable_zero cells _ (List.get_mem _ 0 hn)
      rw [h0]
      unfold twvec
      rw [dif_pos hn]
      have hb := hMb _ (List.get_mem (Grid.new cells).mutable_fields 0 hn)
      have h1 : 1 ≤ t ((Grid.new cells).mutable_fields.get ⟨0, hn⟩)
          ∧ t ((Grid.new cells).mutable_fields.get ⟨0, hn⟩) ≤ 9 :=
        hsol.1 _ _ hb.1 hb.2
      omega
  obtain ⟨B, hB1, hrun⟩ := btLoop_completes (Grid.new cells) t hnd hMb hM0 hsol
    (10 ^ ((Grid.new cells).mutable_fields.length + 1) + 1) 0 (Grid.new cells)
    hInv0 hLex0 (Nat.sub_le _ _)
  refine ⟨B, hB1, ?_⟩
  intro mt hBmt
  obtain ⟨gf, tf, heq, hdone, hWFf, hNDf, hmutf, hunchf, hlef⟩ :=
    hrun 0 mt (mt + 1) (by omega) (by omega)
  have hnzf := all_nonzero_of_done (Grid.new cells) gf hmutf hunchf hM0 hdone
  obtain ⟨hrows, hcols, hparcs⟩ := done_perms gf hWFf hNDf hnzf hlef
  exact ⟨gf, tf, heq, hdone, hrows, hcols, hparcs, hunchf⟩

theorem c1_backtracking_correct_witness :
    ∃ B, 1 ≤ B ∧ ∀ max_tries, B ≤ max_tries →
      ∃ gf tries,
        Backtracing.solve ⟨Grid.new oneCells⟩ max_tries = BTResult.ok ⟨gf⟩ tries
        ∧ Sudoku.is_done ⟨gf⟩ = true
        ∧ (∀ r, r < 9 → (gf.get_row r).Perm [1, 2, 3, 4, 5, 6, 7, 8, 9])
        ∧ (∀ c, c < 9 → (gf.get_col c).Perm [1, 2, 3, 4, 5, 6, 7, 8, 9])
        ∧ (∀ pi, pi < 9 → ((gf.get_parcel pi).flatten).Perm [1, 2, 3, 4, 5, 6, 7, 8, 9])
        ∧ (∀ f : Field, f ∉ (Grid.new oneCells).mutable_fields
            → gf.get f = (Grid.new oneCells).get f) :=
  c1_backtracking_correct oneCells (fun f => (Grid.new solvedCells).get f)
    ⟨rfl, by decide⟩
    (grid_get_le_of_all oneCells (by decide))
    (noDupsCheck_sound _ (by decide))
    (isSolutionCheck_sound _ _ (by decide))

end RsSudoku
